import Mathlib

/-!
Verification of the GrabZilla 2.0 backend core (download orchestrator and
URL pipeline) against its natural-language specification.

The Rust sources under `src-tauri/src/` are shallowly embedded below:
pure functions become Lean functions over `List Char` / `String` / `Nat`,
the async orchestrator (`download_manager.rs`, `process_download_queue`)
becomes an explicit labelled transition system executed by folding a step
function over an action list, and fallible code returns `Option`.

Modelling conventions, stated once here:
* Rust `f32`/`f64` values are modelled as `Rat` (exact rationals); the
  claims examined do not depend on floating-point rounding.
* Rust Unicode-aware character classes (`char::is_numeric`,
  `to_lowercase`, `is_whitespace`) are modelled by their ASCII
  restrictions; every concrete input used is ASCII.
* The third-party `url::Url` parser is modelled on the fragment of simple
  absolute URLs actually exercised by this program: lowercase scheme,
  a host of ASCII letters/digits/dots/hyphens (no userinfo, port or
  fragment), a path, and a query.  On that fragment the model agrees with
  the WHATWG parser the `url` crate implements.
-/

/- The Batteries rational arithmetic operations are irreducible by
default, which blocks kernel evaluation in `decide`; proofs here only
need them unfolded, their definitions are untouched. -/
attribute [local semireducible] Rat.mul Rat.add Rat.sub Rat.inv

/-! ## Basic character and string utilities (ASCII models of Rust str ops) -/

/-- ASCII lowercase of one character (model of Rust `to_lowercase` on ASCII). -/
def asciiLower (c : Char) : Char :=
  if 'A' ≤ c ∧ c ≤ 'Z' then Char.ofNat (c.toNat + 32) else c

/-- Lowercase a string, ASCII only. -/
def lowerStr (s : String) : String :=
  String.mk (s.toList.map asciiLower)

/-- Does `l` contain `pat` as a contiguous substring (Rust `str::contains`)? -/
def containsSub (pat : List Char) : List Char → Bool
  | [] => pat.isEmpty
  | c :: rest => pat.isPrefixOf (c :: rest) || containsSub pat rest

/-- Rust `str::contains` on strings. -/
def strContains (s pat : String) : Bool :=
  containsSub pat.toList s.toList

/-- Numeric value of a digit list (most significant first). -/
def natOfDigits (l : List Char) : Nat :=
  l.foldl (fun a c => a * 10 + (c.toNat - 48)) 0

/-- Model of Rust `str::parse::<u32>()`: optional leading plus sign, at
least one ASCII digit, value below 2^32. -/
def parseU32 (l : List Char) : Option Nat :=
  let l' := match l with
    | '+' :: rest => rest
    | _ => l
  if l' ≠ [] ∧ l'.all Char.isDigit then
    let v := natOfDigits l'
    if v < 2 ^ 32 then some v else none
  else none

/-! ## Quality selector (`download_manager.rs`, `format_quality_selector`) -/

/-- Fallback branch of `format_quality_selector`: if the lowercased
quality ends in a letter p and the rest parses as `u32`, build a height
selector, otherwise return the raw quality string.  (Shared verbatim by
the Rust-derived definition and the spec-amended one because the spec's
fallback sentence describes exactly this code.) -/
def selectorFallback (quality : String) (normalized : String) : String :=
  match normalized.toList.dropLast, normalized.toList.getLast? with
  | body, some 'p' =>
    match parseU32 body with
    | some h => "best[height<=" ++ toString h ++ "]"
    | none => quality
  | _, _ => quality

/-- Embedding of `format_quality_selector` (download_manager.rs:1031).
Exact match of the lowercased quality against literal arms, then the
strip-suffix-p fallback, then the raw string. -/
def format_quality_selector (quality : String) : String :=
  let n := lowerStr quality
  if n = "best" ∨ n = "best available" then "best"
  else if n = "worst" then "worst"
  else if n = "720p" then "best[height<=720]"
  else if n = "1080p" then "best[height<=1080]"
  else if n = "1440p" then "best[height<=1440]"
  else if n = "2160p" ∨ n = "4k" then "best[height<=2160]"
  else if n = "480p" then "best[height<=480]"
  else if n = "360p" then "best[height<=360]"
  else if n = "240p" then "best[height<=240]"
  else if n = "144p" then "best[height<=144]"
  else selectorFallback quality n

/-- The selector as the claim describes it: case-insensitive SUBSTRING
matching for the height tokens and sentinels, raw string otherwise.
Written from the claim's words, to be compared with the source-derived
`format_quality_selector`. -/
def selectorClaimed (quality : String) : String :=
  let n := lowerStr quality
  if strContains n "2160" || strContains n "4k" then "best[height<=2160]"
  else if strContains n "1440" then "best[height<=1440]"
  else if strContains n "1080" then "best[height<=1080]"
  else if strContains n "720" then "best[height<=720]"
  else if strContains n "480" then "best[height<=480]"
  else if strContains n "360" then "best[height<=360]"
  else if strContains n "240" then "best[height<=240]"
  else if strContains n "144" then "best[height<=144]"
  else if strContains n "best" then "best"
  else if strContains n "worst" then "worst"
  else quality

/-- Exact-match table of the amended description: lowercased quality
string to selector. -/
def selectorTable : List (String × String) :=
  [("best", "best"), ("best available", "best"), ("worst", "worst"),
   ("720p", "best[height<=720]"), ("1080p", "best[height<=1080]"),
   ("1440p", "best[height<=1440]"), ("2160p", "best[height<=2160]"),
   ("4k", "best[height<=2160]"), ("480p", "best[height<=480]"),
   ("360p", "best[height<=360]"), ("240p", "best[height<=240]"),
   ("144p", "best[height<=144]")]

/-- The selector as amended: exact lookup of the lowercased quality in a
table, then the strip-suffix-p numeric fallback, then the raw string. -/
def selectorAmended (quality : String) : String :=
  let n := lowerStr quality
  match selectorTable.lookup n with
  | some sel => sel
  | none => selectorFallback quality n

/-! ## Claim C6: quality selector derivation -/

/-- C6 counterexample: the claim says the selector is computed by
case-insensitive substring matching, so a quality string "2160" (which
contains the height token 2160) would have to yield best[height<=2160];
the code's exact-match dispatch returns the raw string "2160" instead. -/
theorem c6_counterexample :
    format_quality_selector "2160" = "2160" ∧
    selectorClaimed "2160" = "best[height<=2160]" ∧
    format_quality_selector "2160" ≠ selectorClaimed "2160" := by
  refine ⟨by decide, by decide, by decide⟩

/-- C6 amended: the selector is derived from the quality string by EXACT
matching of the lowercased string against the sentinel and height-p
tokens (table `selectorTable`), falling back to parsing a trailing-p
numeric height, and otherwise returning the raw string; in particular
"4K" and "2160p" both yield best[height<=2160]. -/
theorem c6_selector_exact_match :
    (∀ q : String, format_quality_selector q = selectorAmended q) ∧
    format_quality_selector "4K" = "best[height<=2160]" ∧
    format_quality_selector "2160p" = "best[height<=2160]" := by
  refine ⟨?_, by decide, by decide⟩
  intro q
  unfold format_quality_selector selectorAmended
  simp only [selectorTable, List.lookup]
  by_cases h1 : lowerStr q = "best"
  · simp [h1]
  by_cases h2 : lowerStr q = "best available"
  · simp [h1, h2]
  by_cases h3 : lowerStr q = "worst"
  · simp [h1, h2, h3]
  by_cases h4 : lowerStr q = "720p"
  · simp [h1, h2, h3, h4]
  by_cases h5 : lowerStr q = "1080p"
  · simp [h1, h2, h3, h4, h5]
  by_cases h6 : lowerStr q = "1440p"
  · simp [h1, h2, h3, h4, h5, h6]
  by_cases h7 : lowerStr q = "2160p"
  · simp [h1, h2, h3, h4, h5, h6, h7]
  by_cases h8 : lowerStr q = "4k"
  · simp [h1, h2, h3, h4, h5, h6, h7, h8]
  by_cases h9 : lowerStr q = "480p"
  · simp [h1, h2, h3, h4, h5, h6, h7, h8, h9]
  by_cases h10 : lowerStr q = "360p"
  · simp [h1, h2, h3, h4, h5, h6, h7, h8, h9, h10]
  by_cases h11 : lowerStr q = "240p"
  · simp [h1, h2, h3, h4, h5, h6, h7, h8, h9, h10, h11]
  by_cases h12 : lowerStr q = "144p"
  · simp [h1, h2, h3, h4, h5, h6, h7, h8, h9, h10, h11, h12]
  have b1 : (lowerStr q == "best") = false := beq_eq_false_iff_ne.mpr h1
  have b2 : (lowerStr q == "best available") = false := beq_eq_false_iff_ne.mpr h2
  have b3 : (lowerStr q == "worst") = false := beq_eq_false_iff_ne.mpr h3
  have b4 : (lowerStr q == "720p") = false := beq_eq_false_iff_ne.mpr h4
  have b5 : (lowerStr q == "1080p") = false := beq_eq_false_iff_ne.mpr h5
  have b6 : (lowerStr q == "1440p") = false := beq_eq_false_iff_ne.mpr h6
  have b7 : (lowerStr q == "2160p") = false := beq_eq_false_iff_ne.mpr h7
  have b8 : (lowerStr q == "4k") = false := beq_eq_false_iff_ne.mpr h8
  have b9 : (lowerStr q == "480p") = false := beq_eq_false_iff_ne.mpr h9
  have b10 : (lowerStr q == "360p") = false := beq_eq_false_iff_ne.mpr h10
  have b11 : (lowerStr q == "240p") = false := beq_eq_false_iff_ne.mpr h11
  have b12 : (lowerStr q == "144p") = false := beq_eq_false_iff_ne.mpr h12
  simp [h1, h2, h3, h4, h5, h6, h7, h8, h9, h10, h11, h12,
    b1, b2, b3, b4, b5, b6, b7, b8, b9, b10, b11, b12]

/-! ## Extractor progress grammar (`parse_ytdlp_progress`, `parse_size_string`) -/

/-- First index at which `pat` occurs as a substring (Rust `str::find` on
a string pattern; byte indices coincide with char indices on ASCII). -/
def findSubIdx (pat : List Char) : List Char → Option Nat
  | [] => if pat.isEmpty then some 0 else none
  | c :: rest =>
    if pat.isPrefixOf (c :: rest) then some 0
    else (findSubIdx pat rest).map (· + 1)

/-- Rust `str::trim` (ASCII whitespace model). -/
def trimChars (l : List Char) : List Char :=
  ((l.dropWhile Char.isWhitespace).reverse.dropWhile Char.isWhitespace).reverse

/-- Rust `trim_start_matches("~ ")`: strip every leading occurrence. -/
def stripTildeAll : List Char → List Char
  | '~' :: ' ' :: rest => stripTildeAll rest
  | l => l

/-- Strip every leading occurrence of the nonempty pattern `pat`; the
fuel argument (structural recursion, so the kernel can evaluate) bounds
the number of strips and `l.length` always suffices since each strip
removes at least one character. -/
def dropRepFuel (pat : List Char) : Nat → List Char → List Char
  | 0, l => l
  | fuel + 1, l =>
    if pat ≠ [] ∧ pat.isPrefixOf l then dropRepFuel pat fuel (l.drop pat.length)
    else l

/-- Rust `trim_end_matches(pat)`: strip every trailing occurrence. -/
def trimEndAll (pat : List Char) (l : List Char) : List Char :=
  (dropRepFuel pat.reverse l.length l.reverse).reverse

/-- Split a char list on a separator character, keeping empty pieces
(Rust `str::split(char)`). -/
def splitOnChar (sep : Char) : List Char → List (List Char)
  | [] => [[]]
  | c :: rest =>
    if c = sep then [] :: splitOnChar sep rest
    else
      match splitOnChar sep rest with
      | [] => [[c]]
      | p :: ps => (c :: p) :: ps

/-- Model of Rust float `from_str` restricted to the decimal forms
`digits`, `digits.digits`, `digits.`, `.digits` the progress lines use;
sign and exponent forms are not modelled (they are treated as
unparseable, whereas Rust would accept them). -/
def parseDecimal (l : List Char) : Option Rat :=
  match splitOnChar '.' l with
  | [ip] =>
    if ip ≠ [] ∧ ip.all Char.isDigit then some (natOfDigits ip : Rat) else none
  | [ip, fp] =>
    if (ip ≠ [] ∨ fp ≠ []) ∧ ip.all Char.isDigit ∧ fp.all Char.isDigit then
      some ((natOfDigits ip * 10 ^ fp.length + natOfDigits fp : Nat) /
            ((10 : Nat) ^ fp.length : Nat))
    else none
  | _ => none

/-- Decidable positivity test on `Rat` (helper; the elaborator needs it
spelled out inside nested lets). -/
def ratPos (r : Rat) : Bool := decide (0 < r)

/-- Rust `as u64` cast of a nonnegative float: floor, saturating at
2^64 - 1 (negative values floor to zero via `Int.toNat`). -/
def ratToU64 (r : Rat) : Nat :=
  min r.floor.toNat (2 ^ 64 - 1)

/-- Embedding of `parse_size_string` (download_manager.rs:1120): strings
like 10.44MiB to byte counts.  Note the source checks the bare suffix B
before the decimal units GB/MB/KB, so those decimal arms are dead code
(10MB matches the B arm and then fails to parse 10M as a number); the
embedding reproduces this. -/
def parse_size_string (sizeStr : List Char) : Option Nat :=
  let s := trimChars sizeStr
  let numUnit : Option (List Char × String) :=
    if "GiB".toList.isSuffixOf s then some (trimEndAll "GiB".toList s, "GiB")
    else if "MiB".toList.isSuffixOf s then some (trimEndAll "MiB".toList s, "MiB")
    else if "KiB".toList.isSuffixOf s then some (trimEndAll "KiB".toList s, "KiB")
    else if "B".toList.isSuffixOf s then some (trimEndAll "B".toList s, "B")
    else if "GB".toList.isSuffixOf s then some (trimEndAll "GB".toList s, "GB")
    else if "MB".toList.isSuffixOf s then some (trimEndAll "MB".toList s, "MB")
    else if "KB".toList.isSuffixOf s then some (trimEndAll "KB".toList s, "KB")
    else none
  match numUnit with
  | none => none
  | some (numPart, unit) =>
    match parseDecimal numPart with
    | none => none
    | some n =>
      let bytes : Rat :=
        if unit = "GiB" then n * 1024 * 1024 * 1024
        else if unit = "MiB" then n * 1024 * 1024
        else if unit = "KiB" then n * 1024
        else if unit = "GB" then n * 1000 * 1000 * 1000
        else if unit = "MB" then n * 1000 * 1000
        else if unit = "KB" then n * 1000
        else n
      some (ratToU64 bytes)

/-- Embedding of `parse_ytdlp_progress` (download_manager.rs:1059).
Returns `(progress, speed, eta, downloaded_bytes, total_bytes)` for a
line containing both `[download]` and a percent sign, `none` otherwise. -/
def parse_ytdlp_progress (line : String) :
    Option (Rat × Option String × Option String × Option Nat × Option Nat) :=
  let l := line.toList
  if containsSub "[download]".toList l ∧ containsSub "%".toList l then
    let progress : Rat :=
      match l.findIdx? (fun c => c.isDigit) with
      | none => 0
      | some i =>
        match (l.drop i).findIdx? (fun c => c = '%') with
        | none => 0
        | some j =>
          match parseDecimal ((l.drop i).take j) with
          | some p => p
          | none => 0
    let totalBytes : Option Nat :=
      match findSubIdx " of ".toList l with
      | none => none
      | some ofPos =>
        let afterOf := l.drop (ofPos + 4)
        match findSubIdx " at ".toList afterOf with
        | none => none
        | some k => parse_size_string (stripTildeAll (trimChars (afterOf.take k)))
    let downloadedBytes : Option Nat :=
      match totalBytes with
      | none => none
      | some t =>
        if ratPos progress then some (ratToU64 ((t : Rat) * progress / 100))
        else none
    let speed : Option String :=
      match findSubIdx " at ".toList l with
      | none => none
      | some atPos =>
        let afterAt := l.drop (atPos + 4)
        match findSubIdx " ETA ".toList afterAt with
        | none => none
        | some e =>
          let speedStr := trimChars (afterAt.take e)
          if speedStr ≠ "Unknown B/s".toList ∧ speedStr ≠ [] then
            some (String.mk speedStr)
          else none
    let eta : Option String :=
      match findSubIdx "ETA ".toList l with
      | none => none
      | some p =>
        let etaStr := trimChars (l.drop (p + 4))
        if etaStr ≠ "Unknown".toList ∧ etaStr ≠ [] then some (String.mk etaStr)
        else none
    some (progress, speed, eta, downloadedBytes, totalBytes)
  else none

/-! ## Claim C5: progress parser totality and percentage range -/

/-- A successfully parsed decimal is nonnegative. -/
theorem parseDecimal_nonneg {l : List Char} {r : Rat}
    (h : parseDecimal l = some r) : 0 ≤ r := by
  unfold parseDecimal at h
  split at h
  · split_ifs at h
    cases h
    exact Nat.cast_nonneg _
  · split_ifs at h
    cases h
    exact div_nonneg (Nat.cast_nonneg _) (Nat.cast_nonneg _)
  · cases h

/-- C5 counterexample: the line below parses successfully with a
percentage of 200, outside the claimed range [0,100]; the parser copies
whatever number precedes the percent sign without clamping. -/
theorem c5_counterexample :
    parse_ytdlp_progress "[download] 200.0% of 10.00MiB at 1.00MiB/s ETA 00:00" =
      some (200, some "1.00MiB/s", some "00:00", some 20971520, some 10485760) ∧
    ¬ ((200 : Rat) ≤ 100) := by
  refine ⟨by decide, by norm_num⟩

/-- C5 amended: the parser is total and returns a value exactly for the
lines containing both a [download] tag and a percent sign (all other
lines are ignored), and every produced percentage is nonnegative; it is
NOT clamped to 100 from above. -/
theorem c5_parser_total_nonneg (line : String) :
    ((parse_ytdlp_progress line).isSome ↔
      (containsSub "[download]".toList line.toList = true ∧
       containsSub "%".toList line.toList = true)) ∧
    (∀ t, parse_ytdlp_progress line = some t → 0 ≤ t.1) := by
  constructor
  · simp only [parse_ytdlp_progress]
    by_cases h : containsSub "[download]".toList line.toList = true ∧
        containsSub "%".toList line.toList = true
    · rw [if_pos h]
      exact iff_of_true rfl h
    · rw [if_neg h]
      exact iff_of_false (by simp) h
  · intro t ht
    simp only [parse_ytdlp_progress] at ht
    by_cases h : containsSub "[download]".toList line.toList = true ∧
        containsSub "%".toList line.toList = true
    case neg => rw [if_neg h] at ht; cases ht
    rw [if_pos h] at ht
    injection ht with ht2
    subst ht2
    dsimp only
    split
    · exact le_rfl
    · split
      · exact le_rfl
      · split
        · exact parseDecimal_nonneg (by assumption)
        · exact le_rfl

/-- C5 witness: instantiating the totality/nonnegativity theorem on the
specification's own sample progress line. -/
theorem c5_parser_total_nonneg_witness :
    parse_ytdlp_progress "[download]  19.1% of   10.44MiB at   41.49MiB/s ETA 00:00" =
      some (191 / 10, some "41.49MiB/s", some "00:00", some 2090902, some 10947133) ∧
    (0 : Rat) ≤ 191 / 10 := by
  refine ⟨by decide, ?_⟩
  exact (c5_parser_total_nonneg
    "[download]  19.1% of   10.44MiB at   41.49MiB/s ETA 00:00").2
    (191 / 10, some "41.49MiB/s", some "00:00", some 2090902, some 10947133)
    (by decide)

/-! ## Artifact locator (`find_downloaded_file`, download_manager.rs:935) -/

/-- A directory entry as `find_downloaded_file` observes it: a file name
and a creation timestamp (metadata `created()`), in directory iteration
order. -/
structure DirEntry where
  name : String
  created : Nat
deriving DecidableEq, Repr

/-- The allowed media extensions (download_manager.rs:937). -/
def videoExtensions : List String :=
  ["mp4", "mkv", "avi", "mov", "wmv", "flv", "webm", "m4v", "3gp", "ogv",
   "mp3", "m4a", "flac", "wav", "ogg", "aac", "opus", "wma"]

/-- Index of the last dot in a char list. -/
def lastDotIdx (l : List Char) : Option Nat :=
  match l.reverse.findIdx? (fun c => c = '.') with
  | none => none
  | some k => some (l.length - 1 - k)

/-- Model of Rust `Path::extension` on a plain file name: the portion
after the last dot, none when there is no dot or the only dot is the
leading character of a hidden file. -/
def extOf (name : String) : Option String :=
  match lastDotIdx name.toList with
  | none => none
  | some 0 => none
  | some i => some (String.mk (name.toList.drop (i + 1)))

/-- The filter of `find_downloaded_file`: skip dotfiles and Thumbs.db,
keep files whose extension lowercases into the allowed set. -/
def eligibleEntry (e : DirEntry) : Bool :=
  if e.name.toList.head? = some '.' ∨ e.name = "Thumbs.db" then false
  else
    match extOf e.name with
    | some ext => videoExtensions.contains (lowerStr ext)
    | none => false

/-- Sorting key relation used by the source: ascending creation time. -/
def createdLe (a b : DirEntry) : Prop := a.created ≤ b.created

instance : DecidableRel createdLe := fun a b => Nat.decLe a.created b.created

instance : IsTotal DirEntry createdLe := ⟨fun a b => Nat.le_total a.created b.created⟩

instance : IsTrans DirEntry createdLe := ⟨fun _ _ _ => Nat.le_trans⟩

/-- Embedding of `find_downloaded_file`: filter eligible entries, stable
sort ascending by creation time (Rust `sort_by_key` is stable, as is
insertion sort), reverse, take the first; none when nothing is eligible
(the source returns a structured "No video files found" error there). -/
def find_downloaded_file (entries : List DirEntry) : Option DirEntry :=
  let elig := entries.filter eligibleEntry
  if elig.isEmpty then none
  else (List.insertionSort createdLe elig).reverse.head?

/-- One fold step selecting the most recently created entry, preferring
the LATER entry on equal timestamps. -/
def pickLater (acc : Option DirEntry) (e : DirEntry) : Option DirEntry :=
  match acc with
  | none => some e
  | some b => if b.created ≤ e.created then some e else some b

/-- Most recently created entry, ties broken towards the last in
iteration order. -/
def lastMaxCreated (l : List DirEntry) : Option DirEntry :=
  l.foldl pickLater none

/-- One fold step selecting the most recently created entry, preferring
the EARLIER entry on equal timestamps — the tie-break the claim
describes. -/
def pickEarlier (acc : Option DirEntry) (e : DirEntry) : Option DirEntry :=
  match acc with
  | none => some e
  | some b => if b.created < e.created then some e else some b

/-- Most recently created entry, ties broken towards the first in
iteration order (the claim's description). -/
def firstMaxCreated (l : List DirEntry) : Option DirEntry :=
  l.foldl pickEarlier none

/-! ## Claim C8: artifact selection -/

/-- Inserting into a sorted list: the last element of the result is the
old last element unless the new element is strictly newer. -/
theorem getLast?_orderedInsert (x : DirEntry) (s : List DirEntry)
    (hs : List.Sorted createdLe s) :
    (List.orderedInsert createdLe x s).getLast? =
      some (match s.getLast? with
            | none => x
            | some b => if b.created < x.created then x else b) := by
  induction s with
  | nil => rfl
  | cons b l ih =>
    by_cases hxb : createdLe x b
    · have hOI : List.orderedInsert createdLe x (b :: l) = x :: b :: l := by
        simp [List.orderedInsert, hxb]
      rw [hOI, List.getLast?_cons_cons]
      cases hgl : (b :: l).getLast? with
      | none => simp at hgl
      | some c =>
        have hc : c ∈ b :: l := List.mem_of_getLast?_eq_some hgl
        have hbc : b.created ≤ c.created := by
          rcases List.mem_cons.mp hc with h | h
          · simp [h]
          · exact List.rel_of_sorted_cons hs c h
        have hcx : ¬ c.created < x.created := by
          have hxb' : x.created ≤ b.created := hxb
          omega
        simp [hcx]
    · have hOI : List.orderedInsert createdLe x (b :: l) =
          b :: List.orderedInsert createdLe x l := by
        simp [List.orderedInsert, hxb]
      rw [hOI]
      cases hoi : List.orderedInsert createdLe x l with
      | nil =>
        exfalso
        have hlen := congrArg List.length hoi
        simp [List.orderedInsert_length] at hlen
      | cons y ys =>
        rw [List.getLast?_cons_cons, ← hoi, ih hs.of_cons]
        cases l with
        | nil =>
          have hbx : b.created < x.created := by
            have : ¬ x.created ≤ b.created := hxb
            omega
          simp [hbx]
        | cons y2 l2 =>
          rw [List.getLast?_cons_cons]

/-- Folding `pickLater` from a seed: the seed survives only if nothing
in the list is at least as new. -/
theorem foldl_pickLater_some (xs : List DirEntry) (b : DirEntry) :
    xs.foldl pickLater (some b) =
      some (match xs.foldl pickLater none with
            | none => b
            | some m => if b.created ≤ m.created then m else b) := by
  induction xs generalizing b with
  | nil => rfl
  | cons e rest ih =>
    simp only [List.foldl_cons]
    have hstep : pickLater (some b) e =
        some (if b.created ≤ e.created then e else b) := by
      dsimp only [pickLater]
      split_ifs <;> rfl
    have hstep0 : pickLater none e = some e := rfl
    rw [hstep, hstep0, ih, ih e]
    rcases hR : rest.foldl pickLater none with _ | m
    · rfl
    · dsimp only
      split_ifs <;> first | rfl | (exfalso; omega)

/-- The last element of the stable ascending sort is exactly the
last-tie-break maximum of the unsorted list. -/
theorem getLast?_insertionSort_eq_lastMax (l : List DirEntry) :
    (List.insertionSort createdLe l).getLast? = lastMaxCreated l := by
  induction l with
  | nil => rfl
  | cons x xs ih =>
    show (List.orderedInsert createdLe x (List.insertionSort createdLe xs)).getLast? = _
    rw [getLast?_orderedInsert x _ (List.sorted_insertionSort createdLe xs), ih]
    unfold lastMaxCreated
    rw [List.foldl_cons, show pickLater none x = some x from rfl,
      foldl_pickLater_some xs x]
    rcases hR : xs.foldl pickLater none with _ | m
    · rfl
    · dsimp only
      split_ifs <;> first | rfl | (exfalso; omega)

/-- C8 amended: the artifact locator selects the most recently created
eligible file (case-insensitive extension in the allowed set, no
dotfiles, no Thumbs.db), breaking creation-time ties by taking the LAST
such file in directory iteration order (not the first: the stable
ascending sort is reversed), and reports the structured error exactly
when no eligible file exists. -/
theorem c8_find_eq_lastMax (entries : List DirEntry) :
    find_downloaded_file entries =
      lastMaxCreated (entries.filter eligibleEntry) ∧
    (find_downloaded_file entries = none ↔
      entries.filter eligibleEntry = []) := by
  have hmain : find_downloaded_file entries =
      lastMaxCreated (entries.filter eligibleEntry) := by
    unfold find_downloaded_file
    by_cases he : (entries.filter eligibleEntry).isEmpty
    · rw [if_pos he, List.isEmpty_iff.mp he]
      rfl
    · rw [if_neg he, ← List.getLast?_eq_head?_reverse]
      exact getLast?_insertionSort_eq_lastMax _
  refine ⟨hmain, ?_⟩
  rw [hmain]
  rcases hl : entries.filter eligibleEntry with _ | ⟨y, ys⟩
  · simp [lastMaxCreated]
  · constructor
    · intro hnone
      rw [lastMaxCreated, List.foldl_cons,
        show pickLater none y = some y from rfl, foldl_pickLater_some] at hnone
      cases hnone
    · intro h
      cases h

/-- C8 counterexample: with two eligible files created at the same
instant, the source (stable ascending sort by creation time, then
reverse, then first) picks the LAST file in directory iteration order,
while the claim prescribes the first. -/
theorem c8_counterexample :
    find_downloaded_file [⟨"a.mp4", 5⟩, ⟨"b.mp4", 5⟩] = some ⟨"b.mp4", 5⟩ ∧
    firstMaxCreated (List.filter eligibleEntry [⟨"a.mp4", 5⟩, ⟨"b.mp4", 5⟩]) =
      some ⟨"a.mp4", 5⟩ ∧
    (⟨"b.mp4", 5⟩ : DirEntry) ≠ ⟨"a.mp4", 5⟩ := by
  refine ⟨by decide, by decide, by decide⟩

/-! ## URL model (`url::Url` fragment, `url_parser.rs`, `security_manager.rs`)

The parser below models `url::Url::parse` on simple absolute URLs:
lowercase alphabetic scheme, nonempty host of lowercase
letters/digits/dots/hyphens (no userinfo, port, IP literal or IDNA), a
path over a conservative character set, an optional query, no fragment.
Inputs outside this fragment make the model parser fail where the WHATWG
parser may normalize; every concrete URL examined lies inside the
fragment, where the two agree. -/

/-- Scheme characters accepted by the model (already-lowercase ASCII). -/
def schemeChar (c : Char) : Bool := c.isLower

/-- Host characters accepted by the model. -/
def hostChar (c : Char) : Bool := c.isLower || c.isDigit || c = '.' || c = '-'

/-- Path characters accepted by the model. -/
def pathChar (c : Char) : Bool :=
  c.isAlpha || c.isDigit || c = '/' || c = '.' || c = '-' || c = '_' ||
  c = '~' || c = '%' || c = '+'

/-- Query characters accepted by the model. -/
def queryChar (c : Char) : Bool :=
  c.isAlpha || c.isDigit || c = '&' || c = '=' || c = '%' || c = '-' ||
  c = '_' || c = '.' || c = '~' || c = '+' || c = '/'

/-- Parsed URL: scheme, host, path (starts with a slash), optional query. -/
structure MUrl where
  scheme : List Char
  host : List Char
  path : List Char
  query : Option (List Char)
deriving DecidableEq, Repr

/-- Model of `Url::parse` on the fragment described above.  An absent or
empty path is normalized to a single slash, as the WHATWG parser does. -/
def parseUrl (l : List Char) : Option MUrl :=
  let sch := l.takeWhile schemeChar
  match l.dropWhile schemeChar with
  | c1 :: c2 :: c3 :: r2 =>
    if c1 = ':' ∧ c2 = '/' ∧ c3 = '/' then
      if sch = [] then none
      else
        let h := r2.takeWhile hostChar
        if h = [] then none
        else
          let r3 := r2.dropWhile hostChar
          let p := r3.takeWhile (fun c => c != '?')
          if ¬ p.all pathChar then none
          else if p ≠ [] ∧ p.head? ≠ some '/' then none
          else
            let path := if p = [] then ['/'] else p
            match r3.dropWhile (fun c => c != '?') with
            | [] => some ⟨sch, h, path, none⟩
            | c :: q =>
              if c = '?' ∧ q.all queryChar then some ⟨sch, h, path, some q⟩
              else none
    else none
  | _ => none

/-- Serialization of the model URL (`Url::to_string`). -/
def serializeUrl (u : MUrl) : List Char :=
  u.scheme ++ (':' :: '/' :: '/' ::
    (u.host ++ (u.path ++
      (match u.query with
       | none => []
       | some q => '?' :: q))))

/-- The network whitelist of `SecurityManager::new` (security_manager.rs:39). -/
def networkWhitelist : List String :=
  ["youtube.com", "youtu.be", "vimeo.com", "dailymotion.com"]

/-- Embedding of `SecurityManager::validate_network_access`
(security_manager.rs:81): parse the URL, extract the host, accept iff the
host string ends with a whitelisted entry; unparseable URLs and URLs
without a host are rejected. -/
def validate_network_access (url : String) : Bool :=
  match parseUrl url.toList with
  | some u => networkWhitelist.any (fun w => w.toList.isSuffixOf u.host)
  | none => false

/-! ## Query-pair machinery (`form_urlencoded` model) and `clean_url` -/

/-- Hex digit value. -/
def hexVal (c : Char) : Option Nat :=
  if c.isDigit then some (c.toNat - 48)
  else if 'a' ≤ c ∧ c ≤ 'f' then some (c.toNat - 87)
  else if 'A' ≤ c ∧ c ≤ 'F' then some (c.toNat - 55)
  else none

/-- Model of `form_urlencoded` percent-plus decoding: plus becomes a
space, a valid percent escape becomes its byte (bytes at or above 0x80
become the Latin-1 scalar here, where Rust would run UTF-8 decoding —
equal on ASCII escapes), an invalid escape stays literal. -/
def decodeGo : Nat → List Char → List Char
  | _, [] => []
  | 0, l => l
  | fuel + 1, c :: rest =>
    if c = '+' then ' ' :: decodeGo fuel rest
    else if c = '%' then
      match rest with
      | a :: b :: rest2 =>
        match hexVal a, hexVal b with
        | some ha, some hb => Char.ofNat (16 * ha + hb) :: decodeGo fuel rest2
        | _, _ => '%' :: decodeGo fuel rest
      | _ => c :: decodeGo fuel rest
    else c :: decodeGo fuel rest

/-- Percent-plus decoding entry point; the fuel `l.length` always
suffices because every step consumes at least one character. -/
def decodeChars (l : List Char) : List Char := decodeGo l.length l

/-- Model of `Url::query_pairs`: split the raw query on ampersands,
skip empty pieces, split each piece at its first equals sign, decode
both sides. -/
def queryPairs (q : List Char) : List (List Char × List Char) :=
  ((splitOnChar '&' q).filter (fun p => p ≠ [])).map
    (fun piece =>
      (decodeChars (piece.takeWhile (fun c => c != '=')),
       decodeChars ((piece.dropWhile (fun c => c != '=')).drop 1)))

/-- Tracking parameter names removed by `clean_url` (url_parser.rs:221). -/
def trackingParams : List (List Char) :=
  ["utm_source", "utm_medium", "utm_campaign", "utm_content", "utm_term",
   "fbclid", "gclid", "ref", "referrer", "source", "campaign"].map
    String.toList

/-- The pairs `clean_url` keeps: every query pair whose decoded name is
not a tracking parameter. -/
def keptPairs (q : List Char) : List (List Char × List Char) :=
  (queryPairs q).filter (fun kv => ¬ trackingParams.contains kv.1)

/-- Rebuilding of the query string from decoded pairs, exactly as the
source does with `format!("{}={}")` and `join("&")` — without
re-encoding the decoded text. -/
def joinPairs (pairs : List (List Char × List Char)) : List Char :=
  List.intercalate ['&'] (pairs.map (fun kv => kv.1 ++ '=' :: kv.2))

/-- The WHATWG query percent-encode set for special schemes, which
`Url::set_query` applies: C0 controls, space, double quote, hash,
angle brackets, apostrophe (char 39), and non-ASCII. -/
def queryEncodeSet (c : Char) : Bool :=
  c.toNat < 32 || c.toNat > 126 || c.toNat = 32 || c.toNat = 34 ||
  c.toNat = 35 || c.toNat = 60 || c.toNat = 62 || c.toNat = 39

/-- Uppercase hex digit. -/
def encodeHexDigit (n : Nat) : Char :=
  if n < 10 then Char.ofNat (48 + n) else Char.ofNat (55 + n)

/-- Model of `Url::set_query` percent-encoding (ASCII range). -/
def encodeQueryChars : List Char → List Char
  | [] => []
  | c :: rest =>
    if queryEncodeSet c then
      '%' :: encodeHexDigit (c.toNat / 16 % 16) :: encodeHexDigit (c.toNat % 16) ::
        encodeQueryChars rest
    else c :: encodeQueryChars rest

/-- The query-rewriting stage of `clean_url` (url_parser.rs:217): drop
tracking pairs, clear the query, and when pairs remain set the rebuilt
`k=v&...` string (percent-encoded only through `set_query`). -/
def cleanedUrl (u : MUrl) : MUrl :=
  let kept := keptPairs (match u.query with | none => [] | some q => q)
  { u with
    query := if kept = [] then none else some (encodeQueryChars (joinPairs kept)) }

/-- Rust `str::split` with a string pattern (fuel-based so the kernel
can evaluate; the fuel is the list length, which always suffices). -/
def splitOnSubGo (pat : List Char) : Nat → List Char → List (List Char)
  | _, [] => [[]]
  | 0, l => [l]
  | fuel + 1, c :: rest =>
    if pat ≠ [] ∧ pat.isPrefixOf (c :: rest) then
      [] :: splitOnSubGo pat fuel ((c :: rest).drop pat.length)
    else
      match splitOnSubGo pat fuel rest with
      | [] => [[c]]
      | p :: ps => (c :: p) :: ps

/-- Rust `str::split` on a string pattern. -/
def splitOnSub (pat l : List Char) : List (List Char) :=
  splitOnSubGo pat l.length l

/-- Embedding of `URLExtractor::expand_shortened_url`
(url_parser.rs:249).  The branches for Vimeo, TikTok, t.co and the
generic shortener list all return the URL unchanged and are collapsed
into the final identity arm. -/
def expand_shortened_url (url : List Char) : List Char :=
  if containsSub "youtu.be/".toList url then
    match (splitOnSub "youtu.be/".toList url)[1]? with
    | some seg =>
      ("https://www.youtube.com/watch?v=".toList ++
        ((seg.takeWhile (fun c => c != '?')).takeWhile (fun c => c != '&')))
    | none => url
  else if containsSub "youtube.com/shorts/".toList url then
    match (splitOnSub "shorts/".toList url)[1]? with
    | some seg =>
      ("https://www.youtube.com/watch?v=".toList ++
        ((seg.takeWhile (fun c => c != '?')).takeWhile (fun c => c != '&')))
    | none => url
  else if containsSub "instagr.am/".toList url then
    List.intercalate "instagram.com/".toList (splitOnSub "instagr.am/".toList url)
  else url

/-- Embedding of `URLExtractor::clean_url` (url_parser.rs:217): parse,
drop tracking query pairs, rebuild the query, serialize, expand known
short URL forms.  `none` models the `Err` of an unparseable URL. -/
def clean_url (s : String) : Option String :=
  match parseUrl s.toList with
  | none => none
  | some u => some (String.mk (expand_shortened_url (serializeUrl (cleanedUrl u))))

/-! ## Claim C4 groundwork: serialization round-trip -/

theorem takeWhile_append_stop (p : Char → Bool) (a b : List Char)
    (ha : ∀ c ∈ a, p c = true)
    (hb : ∀ c, b.head? = some c → p c = false) :
    (a ++ b).takeWhile p = a := by
  induction a with
  | nil =>
    cases b with
    | nil => rfl
    | cons c cs => simp [List.takeWhile_cons, hb c rfl]
  | cons x xs ih =>
    simp only [List.cons_append, List.takeWhile_cons, ha x (by simp), if_true]
    rw [ih (fun c hc => ha c (by simp [hc]))]

theorem dropWhile_append_stop (p : Char → Bool) (a b : List Char)
    (ha : ∀ c ∈ a, p c = true)
    (hb : ∀ c, b.head? = some c → p c = false) :
    (a ++ b).dropWhile p = b := by
  induction a with
  | nil =>
    cases b with
    | nil => rfl
    | cons c cs => simp [List.dropWhile_cons, hb c rfl]
  | cons x xs ih =>
    simp only [List.cons_append, List.dropWhile_cons, ha x (by simp), if_true]
    exact ih (fun c hc => ha c (by simp [hc]))

theorem pathChar_ne_q {c : Char} (h : pathChar c = true) : (c != '?') = true := by
  by_cases hc : c = '?'
  · subst hc; exact absurd h (by decide)
  · simpa [bne_iff_ne] using hc

def WFUrl (u : MUrl) : Prop :=
  u.scheme ≠ [] ∧ (∀ c ∈ u.scheme, schemeChar c = true) ∧
  u.host ≠ [] ∧ (∀ c ∈ u.host, hostChar c = true) ∧
  u.path.head? = some '/' ∧ (∀ c ∈ u.path, pathChar c = true) ∧
  (match u.query with
   | none => True
   | some q => ∀ c ∈ q, queryChar c = true)

theorem parseUrl_serializeUrl (u : MUrl) (h : WFUrl u) :
    parseUrl (serializeUrl u) = some u := by
  obtain ⟨sch, host, path, query⟩ := u
  obtain ⟨hs, hsc, hh, hhc, hph, hpc, hq⟩ := h
  simp only at hs hsc hh hhc hph hpc hq
  obtain ⟨p', hp'⟩ : ∃ p', path = '/' :: p' := by
    cases hpd : path with
    | nil => rw [hpd] at hph; exact absurd hph (by simp)
    | cons a rest =>
      rw [hpd] at hph
      simp at hph
      exact ⟨rest, by rw [hph]⟩
  subst hp'
  have hpall : ('/' :: p').all pathChar = true := by
    rw [List.all_eq_true]
    exact hpc
  rcases query with _ | q
  · unfold serializeUrl parseUrl
    simp only
    rw [takeWhile_append_stop schemeChar sch _ hsc
        (by intro c hc; simp at hc; subst hc; decide)]
    rw [dropWhile_append_stop schemeChar sch _ hsc
        (by intro c hc; simp at hc; subst hc; decide)]
    dsimp only
    rw [if_pos (⟨rfl, rfl, rfl⟩ : (':' : Char) = ':' ∧ ('/' : Char) = '/' ∧ ('/' : Char) = '/')]
    rw [if_neg hs]
    rw [takeWhile_append_stop hostChar host _ hhc
        (by intro c hc; simp at hc; subst hc; decide)]
    rw [dropWhile_append_stop hostChar host _ hhc
        (by intro c hc; simp at hc; subst hc; decide)]
    rw [if_neg hh]
    rw [takeWhile_append_stop (fun c => c != '?') ('/' :: p') _
        (fun c hc => pathChar_ne_q (hpc c hc))
        (by intro c hc; simp at hc)]
    rw [dropWhile_append_stop (fun c => c != '?') ('/' :: p') _
        (fun c hc => pathChar_ne_q (hpc c hc))
        (by intro c hc; simp at hc)]
    rw [if_neg (not_not_intro hpall)]
    rw [if_neg (by
      rintro ⟨-, hbad⟩
      exact hbad (by simp))]
    try dsimp only
    rw [if_neg (by simp : ¬ ('/' :: p' = []))]
  · unfold serializeUrl parseUrl
    simp only
    rw [takeWhile_append_stop schemeChar sch _ hsc
        (by intro c hc; simp at hc; subst hc; decide)]
    rw [dropWhile_append_stop schemeChar sch _ hsc
        (by intro c hc; simp at hc; subst hc; decide)]
    dsimp only
    rw [if_pos (⟨rfl, rfl, rfl⟩ : (':' : Char) = ':' ∧ ('/' : Char) = '/' ∧ ('/' : Char) = '/')]
    rw [if_neg hs]
    rw [takeWhile_append_stop hostChar host _ hhc
        (by intro c hc; simp at hc; subst hc; decide)]
    rw [dropWhile_append_stop hostChar host _ hhc
        (by intro c hc; simp at hc; subst hc; decide)]
    rw [if_neg hh]
    rw [takeWhile_append_stop (fun c => c != '?') ('/' :: p') _
        (fun c hc => pathChar_ne_q (hpc c hc))
        (by intro c hc; simp at hc; subst hc; decide)]
    rw [dropWhile_append_stop (fun c => c != '?') ('/' :: p') _
        (fun c hc => pathChar_ne_q (hpc c hc))
        (by intro c hc; simp at hc; subst hc; decide)]
    rw [if_neg (not_not_intro hpall)]
    rw [if_neg (by
      rintro ⟨-, hbad⟩
      exact hbad (by simp))]
    dsimp only
    rw [if_neg (by simp : ¬ ('/' :: p' = []))]
    rw [if_pos (⟨rfl, by rw [List.all_eq_true]; exact hq⟩ :
      ('?' : Char) = '?' ∧ q.all queryChar = true)]

/-! ## Claim C4 groundwork: decode/encode identities and pair round-trip -/

theorem decodeGo_id (fuel : Nat) (l : List Char) (hf : l.length ≤ fuel)
    (h : ∀ c ∈ l, c ≠ '%' ∧ c ≠ '+') : decodeGo fuel l = l := by
  induction fuel generalizing l with
  | zero =>
    cases l with
    | nil => rfl
    | cons c rest => simp at hf
  | succ fuel ih =>
    cases l with
    | nil => rfl
    | cons c rest =>
      have hc := h c (by simp)
      unfold decodeGo
      rw [if_neg hc.2, if_neg hc.1]
      rw [ih rest (by simp at hf; omega) (fun d hd => h d (by simp [hd]))]

theorem decodeChars_id (l : List Char) (h : ∀ c ∈ l, c ≠ '%' ∧ c ≠ '+') :
    decodeChars l = l :=
  decodeGo_id l.length l le_rfl h

theorem encodeQueryChars_id (l : List Char)
    (h : ∀ c ∈ l, queryEncodeSet c = false) : encodeQueryChars l = l := by
  induction l with
  | nil => rfl
  | cons c rest ih =>
    unfold encodeQueryChars
    rw [if_neg (by simp [h c (by simp)])]
    rw [ih (fun d hd => h d (by simp [hd]))]

theorem splitOnChar_no_sep (sep : Char) (l : List Char) (h : sep ∉ l) :
    splitOnChar sep l = [l] := by
  induction l with
  | nil => rfl
  | cons c rest ih =>
    conv_lhs => rw [splitOnChar]
    rw [if_neg (by rintro rfl; exact h (by simp))]
    rw [ih (fun hr => h (by simp [hr]))]

theorem splitOnChar_append_sep (sep : Char) (x t : List Char) (hx : sep ∉ x) :
    splitOnChar sep (x ++ sep :: t) = x :: splitOnChar sep t := by
  induction x with
  | nil =>
    simp only [List.nil_append]
    conv_lhs => rw [splitOnChar]
    rw [if_pos rfl]
  | cons c rest ih =>
    simp only [List.cons_append]
    conv_lhs => rw [splitOnChar]
    rw [if_neg (by rintro rfl; exact hx (by simp))]
    rw [ih (fun hr => hx (by simp [hr]))]

theorem splitOnChar_intercalate (sep : Char) (pieces : List (List Char))
    (hne : pieces ≠ []) (h : ∀ p ∈ pieces, sep ∉ p) :
    splitOnChar sep (List.intercalate [sep] pieces) = pieces := by
  induction pieces with
  | nil => exact absurd rfl hne
  | cons x rest ih =>
    cases rest with
    | nil =>
      simp [List.intercalate]
      exact splitOnChar_no_sep sep x (h x (by simp))
    | cons y ys =>
      have hx : sep ∉ x := h x (by simp)
      have hstep : List.intercalate [sep] (x :: y :: ys) =
          x ++ sep :: List.intercalate [sep] (y :: ys) := by
        simp [List.intercalate, List.intersperse]
      rw [hstep, splitOnChar_append_sep sep x _ hx]
      rw [ih (by simp) (fun p hp => h p (by simp [hp]))]

theorem splitOnChar_pieces (sep : Char) (l : List Char) :
    ∀ p ∈ splitOnChar sep l, sep ∉ p ∧ ∀ c ∈ p, c ∈ l := by
  induction l with
  | nil =>
    intro p hp
    simp only [splitOnChar, List.mem_singleton] at hp
    subst hp
    simp
  | cons c rest ih =>
    intro p hp
    rw [splitOnChar] at hp
    by_cases hc : c = sep
    · rw [if_pos hc] at hp
      rcases List.mem_cons.mp hp with rfl | hp2
      · simp
      · obtain ⟨h1, h2⟩ := ih p hp2
        exact ⟨h1, fun d hd => by simp [h2 d hd]⟩
    · rw [if_neg hc] at hp
      rcases hS : splitOnChar sep rest with _ | ⟨q, qs⟩
      · rw [hS] at hp
        simp only [List.mem_singleton] at hp
        subst hp
        refine ⟨by simpa using fun hcc => hc hcc.symm, ?_⟩
        intro d hd
        simp only [List.mem_singleton] at hd
        simp [hd]
      · rw [hS] at hp
        rcases List.mem_cons.mp hp with rfl | hp2
        · have hq := ih q (by rw [hS]; simp)
          constructor
          · intro hmem
            rcases List.mem_cons.mp hmem with rfl | hmem2
            · exact hc rfl
            · exact hq.1 hmem2
          · intro d hd
            rcases List.mem_cons.mp hd with rfl | hd2
            · simp
            · simp [hq.2 d hd2]
        · have hq := ih p (by rw [hS]; simp [hp2])
          exact ⟨hq.1, fun d hd => by simp [hq.2 d hd]⟩

theorem mem_joinPairs (pairs : List (List Char × List Char)) (c : Char)
    (hc : c ∈ joinPairs pairs) :
    c = '&' ∨ c = '=' ∨ ∃ kv ∈ pairs, c ∈ kv.1 ∨ c ∈ kv.2 := by
  induction pairs with
  | nil => simp [joinPairs, List.intercalate] at hc
  | cons kv rest ih =>
    cases rest with
    | nil =>
      have hc2 : c ∈ kv.1 ∨ c = '=' ∨ c ∈ kv.2 := by
        simpa [joinPairs, List.intercalate] using hc
      rcases hc2 with h1 | h2 | h3
      · exact Or.inr (Or.inr ⟨kv, by simp, Or.inl h1⟩)
      · exact Or.inr (Or.inl h2)
      · exact Or.inr (Or.inr ⟨kv, by simp, Or.inr h3⟩)
    | cons kv2 rest2 =>
      have hstep : joinPairs (kv :: kv2 :: rest2) =
          (kv.1 ++ '=' :: kv.2) ++ '&' :: joinPairs (kv2 :: rest2) := by
        simp [joinPairs, List.intercalate, List.intersperse]
      rw [hstep] at hc
      rcases List.mem_append.mp hc with h1 | h2
      · rcases List.mem_append.mp h1 with ha | hb
        · exact Or.inr (Or.inr ⟨kv, by simp, Or.inl ha⟩)
        · rcases List.mem_cons.mp hb with rfl | h3
          · exact Or.inr (Or.inl rfl)
          · exact Or.inr (Or.inr ⟨kv, by simp, Or.inr h3⟩)
      · rcases List.mem_cons.mp h2 with rfl | h3
        · exact Or.inl rfl
        · rcases ih h3 with h | h | ⟨kv3, hkv3, h⟩
          · exact Or.inl h
          · exact Or.inr (Or.inl h)
          · exact Or.inr (Or.inr ⟨kv3, by simp [hkv3], h⟩)

def goodPair (kv : List Char × List Char) : Prop :=
  '&' ∉ kv.1 ∧ '=' ∉ kv.1 ∧ (∀ c ∈ kv.1, c ≠ '%' ∧ c ≠ '+') ∧
  '&' ∉ kv.2 ∧ (∀ c ∈ kv.2, c ≠ '%' ∧ c ≠ '+')

theorem map_decode_pairs (pairs : List (List Char × List Char))
    (h : ∀ kv ∈ pairs, goodPair kv) :
    pairs.map (fun kv =>
      (decodeChars ((kv.1 ++ '=' :: kv.2).takeWhile (fun c => c != '=')),
       decodeChars (((kv.1 ++ '=' :: kv.2).dropWhile (fun c => c != '=')).drop 1))) =
    pairs := by
  induction pairs with
  | nil => rfl
  | cons kv rest ih =>
    rw [List.map_cons]
    obtain ⟨hk1, hk2, hk3, hv1, hv2⟩ := h kv (by simp)
    have htw : (kv.1 ++ '=' :: kv.2).takeWhile (fun c => c != '=') = kv.1 :=
      takeWhile_append_stop _ _ _
        (fun c hc => by
          simp only [bne_iff_ne, ne_eq, decide_eq_true_eq]
          exact fun he => hk2 (he ▸ hc))
        (by intro c hc; simp at hc; subst hc; simp)
    have hdw : (kv.1 ++ '=' :: kv.2).dropWhile (fun c => c != '=') = '=' :: kv.2 :=
      dropWhile_append_stop _ _ _
        (fun c hc => by
          simp only [bne_iff_ne, ne_eq, decide_eq_true_eq]
          exact fun he => hk2 (he ▸ hc))
        (by intro c hc; simp at hc; subst hc; simp)
    rw [htw, hdw]
    simp only [List.drop_succ_cons, List.drop_zero]
    rw [decodeChars_id _ hk3, decodeChars_id _ hv2]
    rw [ih (fun kv2 hkv2 => h kv2 (by simp [hkv2]))]

theorem queryPairs_joinPairs (pairs : List (List Char × List Char))
    (hne : pairs ≠ []) (h : ∀ kv ∈ pairs, goodPair kv) :
    queryPairs (joinPairs pairs) = pairs := by
  unfold queryPairs joinPairs
  rw [splitOnChar_intercalate '&' _ (by simpa using hne) ?notamp]
  case notamp =>
    intro p hp
    simp only [List.mem_map] at hp
    obtain ⟨kv, hkv, rfl⟩ := hp
    obtain ⟨hk1, _, _, hv1, _⟩ := h kv hkv
    intro hmem
    rcases List.mem_append.mp hmem with ha | hb
    · exact hk1 ha
    · rcases List.mem_cons.mp hb with heq | hc
      · cases heq
      · exact hv1 hc
  rw [List.filter_eq_self.mpr ?piece_ne]
  case piece_ne =>
    intro p hp
    simp only [List.mem_map] at hp
    obtain ⟨kv, hkv, rfl⟩ := hp
    simp
  rw [List.map_map]
  exact map_decode_pairs pairs h

/-! ## Claim C4 groundwork: parser facts and character-set facts -/

/-- When none of the three rewriting triggers occurs in the URL,
`expand_shortened_url` is the identity (the vimeo/tiktok/t.co/shortener
branches return the URL unchanged regardless). -/
theorem expand_stable (l : List Char)
    (h1 : containsSub "youtu.be/".toList l = false)
    (h2 : containsSub "youtube.com/shorts/".toList l = false)
    (h3 : containsSub "instagr.am/".toList l = false) :
    expand_shortened_url l = l := by
  unfold expand_shortened_url
  rw [if_neg (by simpa using h1), if_neg (by simpa using h2),
    if_neg (by simpa using h3)]

/-- Everything the model parser accepts is well-formed. -/
theorem parseUrl_wf {l : List Char} {u : MUrl} (h : parseUrl l = some u) :
    WFUrl u := by
  unfold parseUrl at h
  rcases hd : l.dropWhile schemeChar with _ | ⟨c1, r1⟩
  · rw [hd] at h; cases h
  rcases r1 with _ | ⟨c2, r2⟩
  · rw [hd] at h; cases h
  rcases r2 with _ | ⟨c3, r3⟩
  · rw [hd] at h; cases h
  rw [hd] at h
  dsimp only at h
  by_cases hc : c1 = ':' ∧ c2 = '/' ∧ c3 = '/'
  case neg => rw [if_neg hc] at h; cases h
  rw [if_pos hc] at h
  by_cases hsch : l.takeWhile schemeChar = []
  · rw [if_pos hsch] at h; cases h
  rw [if_neg hsch] at h
  by_cases hhost : r3.takeWhile hostChar = []
  · rw [if_pos hhost] at h; cases h
  rw [if_neg hhost] at h
  by_cases hpall : ¬ (r3.dropWhile hostChar |>.takeWhile
      (fun c => c != '?')).all pathChar = true
  · rw [if_pos hpall] at h; cases h
  rw [if_neg hpall] at h
  rw [not_not] at hpall
  by_cases hphead : (r3.dropWhile hostChar |>.takeWhile (fun c => c != '?')) ≠ [] ∧
      (r3.dropWhile hostChar |>.takeWhile (fun c => c != '?')).head? ≠ some '/'
  · rw [if_pos hphead] at h; cases h
  rw [if_neg hphead] at h
  have hschemeAll : ∀ c ∈ l.takeWhile schemeChar, schemeChar c = true :=
    fun c hc => List.mem_takeWhile_imp hc
  have hhostAll : ∀ c ∈ r3.takeWhile hostChar, hostChar c = true :=
    fun c hc => List.mem_takeWhile_imp hc
  have hpath : ((if (r3.dropWhile hostChar |>.takeWhile (fun c => c != '?')) = []
        then ['/'] else (r3.dropWhile hostChar |>.takeWhile
          (fun c => c != '?'))).head? = some '/') ∧
      (∀ c ∈ (if (r3.dropWhile hostChar |>.takeWhile (fun c => c != '?')) = []
        then ['/'] else (r3.dropWhile hostChar |>.takeWhile
          (fun c => c != '?'))), pathChar c = true) := by
    by_cases hp0 : (r3.dropWhile hostChar |>.takeWhile (fun c => c != '?')) = []
    · rw [if_pos hp0]
      exact ⟨rfl, by intro c hc; simp at hc; subst hc; decide⟩
    · rw [if_neg hp0]
      constructor
      · by_contra hne
        exact hphead ⟨hp0, hne⟩
      · intro c hc
        exact (List.all_eq_true.mp hpall) c hc
  rcases hq : (r3.dropWhile hostChar |>.dropWhile (fun c => c != '?')) with _ | ⟨cq, q⟩
  · rw [hq] at h
    dsimp only at h
    injection h with h2
    subst h2
    exact ⟨hsch, hschemeAll, hhost, hhostAll, hpath.1, hpath.2, trivial⟩
  · rw [hq] at h
    dsimp only at h
    by_cases hcq : cq = '?' ∧ q.all queryChar = true
    case neg => rw [if_neg hcq] at h; cases h
    rw [if_pos hcq] at h
    injection h with h2
    subst h2
    exact ⟨hsch, hschemeAll, hhost, hhostAll, hpath.1, hpath.2,
      fun c hc => (List.all_eq_true.mp hcq.2) c hc⟩

theorem isUpper_toNat {c : Char} (h : c.isUpper = true) :
    65 ≤ c.toNat ∧ c.toNat ≤ 90 := by
  unfold Char.isUpper at h
  simp only [Bool.and_eq_true, decide_eq_true_eq, ge_iff_le,
    UInt32.le_def, BitVec.le_def] at h
  obtain ⟨h1, h2⟩ := h
  unfold Char.toNat UInt32.toNat
  exact ⟨by simpa using h1, by simpa using h2⟩

theorem isLower_toNat {c : Char} (h : c.isLower = true) :
    97 ≤ c.toNat ∧ c.toNat ≤ 122 := by
  unfold Char.isLower at h
  simp only [Bool.and_eq_true, decide_eq_true_eq, ge_iff_le,
    UInt32.le_def, BitVec.le_def] at h
  obtain ⟨h1, h2⟩ := h
  unfold Char.toNat UInt32.toNat
  exact ⟨by simpa using h1, by simpa using h2⟩

theorem isDigit_toNat {c : Char} (h : c.isDigit = true) :
    48 ≤ c.toNat ∧ c.toNat ≤ 57 := by
  unfold Char.isDigit at h
  simp only [Bool.and_eq_true, decide_eq_true_eq, ge_iff_le,
    UInt32.le_def, BitVec.le_def] at h
  obtain ⟨h1, h2⟩ := h
  unfold Char.toNat UInt32.toNat
  exact ⟨by simpa using h1, by simpa using h2⟩

theorem queryChar_not_encode {c : Char} (h : queryChar c = true) :
    queryEncodeSet c = false := by
  unfold queryChar Char.isAlpha at h
  simp only [Bool.or_eq_true, decide_eq_true_eq] at h
  have hr : (65 ≤ c.toNat ∧ c.toNat ≤ 90) ∨ (97 ≤ c.toNat ∧ c.toNat ≤ 122) ∨
      (48 ≤ c.toNat ∧ c.toNat ≤ 57) ∨ c.toNat = 38 ∨ c.toNat = 61 ∨
      c.toNat = 37 ∨ c.toNat = 45 ∨ c.toNat = 95 ∨ c.toNat = 46 ∨
      c.toNat = 126 ∨ c.toNat = 43 ∨ c.toNat = 47 := by
    rcases h with
      (((((((((((hu | hl) | hd) | h1) | h2) | h3) | h4) | h5) | h6) | h7) | h8) | h9)
    · exact Or.inl (isUpper_toNat hu)
    · exact Or.inr (Or.inl (isLower_toNat hl))
    · exact Or.inr (Or.inr (Or.inl (isDigit_toNat hd)))
    all_goals subst_vars
    all_goals decide
  unfold queryEncodeSet
  simp only [Bool.or_eq_false_iff, decide_eq_false_iff_not, not_lt, gt_iff_lt]
  omega

/-! ## Claim C4: canonicalization idempotence -/

/-- Pairs surviving the tracking filter of a benign query (no percent
escapes, no plus signs) are made of literal substrings of the query. -/
theorem keptPairs_facts {q : List Char}
    (hb : ∀ c ∈ q, c ≠ '%' ∧ c ≠ '+') :
    ∀ kv ∈ keptPairs q,
      goodPair kv ∧ (∀ c ∈ kv.1, c ∈ q) ∧ (∀ c ∈ kv.2, c ∈ q) := by
  intro kv hkv
  have hkv2 : kv ∈ queryPairs q := List.mem_of_mem_filter hkv
  unfold queryPairs at hkv2
  simp only [List.mem_map] at hkv2
  obtain ⟨piece, hpiece, rfl⟩ := hkv2
  have hpc : piece ∈ splitOnChar '&' q := List.mem_of_mem_filter hpiece
  obtain ⟨hamp, hsub⟩ := splitOnChar_pieces '&' q piece hpc
  have hk'sub : ∀ c ∈ piece.takeWhile (fun c => c != '='), c ∈ piece :=
    fun c hc => (List.takeWhile_sublist _).subset hc
  have hv'sub : ∀ c ∈ (piece.dropWhile (fun c => c != '=')).drop 1, c ∈ piece :=
    fun c hc => (List.dropWhile_sublist _).subset (List.drop_subset _ _ hc)
  have hdk : decodeChars (piece.takeWhile (fun c => c != '=')) =
      piece.takeWhile (fun c => c != '=') :=
    decodeChars_id _ (fun c hc => hb c (hsub c (hk'sub c hc)))
  have hdv : decodeChars ((piece.dropWhile (fun c => c != '=')).drop 1) =
      (piece.dropWhile (fun c => c != '=')).drop 1 :=
    decodeChars_id _ (fun c hc => hb c (hsub c (hv'sub c hc)))
  refine ⟨⟨?_, ?_, ?_, ?_, ?_⟩, ?_, ?_⟩
  · rw [hdk]
    exact fun hmem => hamp (hk'sub _ hmem)
  · rw [hdk]
    intro hmem
    have := List.mem_takeWhile_imp hmem
    simp [bne_iff_ne] at this
  · rw [hdk]
    exact fun c hc => hb c (hsub c (hk'sub c hc))
  · rw [hdv]
    exact fun hmem => hamp (hv'sub _ hmem)
  · rw [hdv]
    exact fun c hc => hb c (hsub c (hv'sub c hc))
  · rw [hdk]
    exact fun c hc => hsub c (hk'sub c hc)
  · rw [hdv]
    exact fun c hc => hsub c (hv'sub c hc)

/-- Cleaning an empty query keeps nothing. -/
theorem keptPairs_nil : keptPairs [] = [] := by decide

/-- C4 amended: canonicalization is idempotent for every URL whose query
contains no percent escape and no plus sign and whose cleaned form
contains none of the short-URL rewrite triggers; the general claim fails
(see the counterexample) because the rebuilt query is not re-encoded. -/
theorem c4_clean_idempotent_on_benign (s : String) (u : MUrl)
    (hp : parseUrl s.toList = some u)
    (hb : match u.query with
          | none => True
          | some q => ∀ c ∈ q, c ≠ '%' ∧ c ≠ '+')
    (ht1 : containsSub "youtu.be/".toList (serializeUrl (cleanedUrl u)) = false)
    (ht2 : containsSub "youtube.com/shorts/".toList (serializeUrl (cleanedUrl u)) = false)
    (ht3 : containsSub "instagr.am/".toList (serializeUrl (cleanedUrl u)) = false) :
    ∃ v, clean_url s = some v ∧ clean_url v = some v := by
  obtain ⟨hs, hsc, hh, hhc, hph, hpc, hq⟩ := parseUrl_wf hp
  have hclean : clean_url s = some (String.mk (serializeUrl (cleanedUrl u))) := by
    unfold clean_url
    rw [hp]
    dsimp only
    rw [expand_stable _ ht1 ht2 ht3]
  refine ⟨String.mk (serializeUrl (cleanedUrl u)), hclean, ?_⟩
  obtain ⟨us, uh, up, uq⟩ := u
  simp only at hs hsc hh hhc hph hpc hq hb
  rcases uq with _ | q
  · -- no query: cleanedUrl is the identity
    have hcu : cleanedUrl ⟨us, uh, up, none⟩ = ⟨us, uh, up, none⟩ := by
      unfold cleanedUrl
      simp only [keptPairs_nil, if_pos]
    rw [hcu] at ht1 ht2 ht3 ⊢
    unfold clean_url
    rw [show (String.mk (serializeUrl ⟨us, uh, up, none⟩)).toList =
        serializeUrl ⟨us, uh, up, none⟩ from rfl]
    rw [parseUrl_serializeUrl _ ⟨hs, hsc, hh, hhc, hph, hpc, trivial⟩]
    dsimp only
    rw [hcu, expand_stable _ ht1 ht2 ht3]
  · -- query present and benign
    have hbq : ∀ c ∈ q, c ≠ '%' ∧ c ≠ '+' := hb
    have hqc : ∀ c ∈ q, queryChar c = true := hq
    have hkf := keptPairs_facts hbq
    have hcuq : cleanedUrl ⟨us, uh, up, some q⟩ =
        ⟨us, uh, up,
          if keptPairs q = [] then none
          else some (encodeQueryChars (joinPairs (keptPairs q)))⟩ := rfl
    by_cases hk : keptPairs q = []
    · -- all pairs were tracking parameters: query cleared
      have hcu : cleanedUrl ⟨us, uh, up, some q⟩ = ⟨us, uh, up, none⟩ := by
        rw [hcuq, if_pos hk]
      rw [hcu] at ht1 ht2 ht3 ⊢
      unfold clean_url
      rw [show (String.mk (serializeUrl ⟨us, uh, up, none⟩)).toList =
          serializeUrl ⟨us, uh, up, none⟩ from rfl]
      rw [parseUrl_serializeUrl _ ⟨hs, hsc, hh, hhc, hph, hpc, trivial⟩]
      dsimp only
      have hcu2 : cleanedUrl ⟨us, uh, up, none⟩ = ⟨us, uh, up, none⟩ := by
        unfold cleanedUrl
        simp only [keptPairs_nil, if_pos]
      rw [hcu2, expand_stable _ ht1 ht2 ht3]
    · -- pairs remain
      have hjchars : ∀ c ∈ joinPairs (keptPairs q), queryChar c = true := by
        intro c hc
        rcases mem_joinPairs _ c hc with rfl | rfl | ⟨kv, hkv, hc2⟩
        · decide
        · decide
        · obtain ⟨-, hsub1, hsub2⟩ := hkf kv hkv
          rcases hc2 with h1 | h2
          · exact hqc c (hsub1 c h1)
          · exact hqc c (hsub2 c h2)
      have hencode : encodeQueryChars (joinPairs (keptPairs q)) =
          joinPairs (keptPairs q) :=
        encodeQueryChars_id _
          (fun c hc => queryChar_not_encode (hjchars c hc))
      have hcu : cleanedUrl ⟨us, uh, up, some q⟩ =
          ⟨us, uh, up, some (joinPairs (keptPairs q))⟩ := by
        rw [hcuq, if_neg hk, hencode]
      rw [hcu] at ht1 ht2 ht3 ⊢
      unfold clean_url
      rw [show (String.mk (serializeUrl ⟨us, uh, up,
          some (joinPairs (keptPairs q))⟩)).toList =
          serializeUrl ⟨us, uh, up, some (joinPairs (keptPairs q))⟩ from rfl]
      rw [parseUrl_serializeUrl _
        ⟨hs, hsc, hh, hhc, hph, hpc, fun c hc => hjchars c hc⟩]
      -- cleaning again is the identity on the already-cleaned query
      have hroundtrip : queryPairs (joinPairs (keptPairs q)) = keptPairs q :=
        queryPairs_joinPairs _ hk (fun kv hkv => (hkf kv hkv).1)
      have hkept2 : keptPairs (joinPairs (keptPairs q)) = keptPairs q := by
        conv_lhs => rw [keptPairs]
        rw [hroundtrip]
        apply List.filter_eq_self.mpr
        intro kv hkv
        conv at hkv => rw [keptPairs]
        exact (List.mem_filter.mp hkv).2
      dsimp only
      have hcu2 : cleanedUrl ⟨us, uh, up, some (joinPairs (keptPairs q))⟩ =
          ⟨us, uh, up, some (joinPairs (keptPairs q))⟩ := by
        unfold cleanedUrl
        simp only [hkept2, if_neg hk, hencode]
      rw [hcu2, expand_stable _ ht1 ht2 ht3]

/-- C4 counterexample: cleaning decodes the query pair a=%26 to a literal
ampersand and rebuilds the query without re-encoding it, so the first
clean yields ?a=& whose re-parse drops the dangling piece: clean is not
idempotent. -/
theorem c4_counterexample :
    clean_url "https://example.com/?a=%26" = some "https://example.com/?a=&" ∧
    clean_url "https://example.com/?a=&" = some "https://example.com/?a=" ∧
    ("https://example.com/?a=&" : String) ≠ "https://example.com/?a=" := by
  refine ⟨by decide, by decide, by decide⟩

/-- C4 witness: the idempotence theorem applied to the specification's
own sample URL with a tracking parameter. -/
theorem c4_clean_idempotent_on_benign_witness :
    clean_url "https://www.youtube.com/watch?v=dQw4w9WgXcQ&utm_source=x" =
      some "https://www.youtube.com/watch?v=dQw4w9WgXcQ" ∧
    clean_url "https://www.youtube.com/watch?v=dQw4w9WgXcQ" =
      some "https://www.youtube.com/watch?v=dQw4w9WgXcQ" := by
  obtain ⟨v, hv1, hv2⟩ := c4_clean_idempotent_on_benign
    "https://www.youtube.com/watch?v=dQw4w9WgXcQ&utm_source=x"
    ⟨"https".toList, "www.youtube.com".toList, "/watch".toList,
      some "v=dQw4w9WgXcQ&utm_source=x".toList⟩
    (by decide) (by decide) (by decide) (by decide) (by decide)
  have he : clean_url "https://www.youtube.com/watch?v=dQw4w9WgXcQ&utm_source=x" =
      some "https://www.youtube.com/watch?v=dQw4w9WgXcQ" := by decide
  refine ⟨he, ?_⟩
  have hlv : "https://www.youtube.com/watch?v=dQw4w9WgXcQ" = v :=
    Option.some_inj.mp (he.symm.trans hv1)
  rw [← hlv] at hv2
  exact hv2

/-! ## Job orchestrator model (`download_manager.rs`)

The orchestrator of `process_download_queue` together with
`queue_download`, `cancel_download` and `set_max_concurrent_downloads`
is modelled as a labelled transition system.  External actions (enqueue,
cancel, set-max) come from the IPC layer; internal actions are the
scheduler-loop iterations and the atomic phases of a worker task, with
the environment nondeterminism (spawn success, child exit status,
directory listings at scan time) carried on the action labels.  A guard
failing makes the action a no-op, so a run is any action list folded
over the step function.  The model assumes a progress channel is wired
(`set_progress_callback` was called) and keeps every emitted event in
an event log. -/

/-- `ConversionFormat` of ffmpeg_controller.rs. -/
inductive ConversionFormat
  | h264HighProfile
  | dnxhrSQ
  | proResProxy
  | mp3Audio
deriving DecidableEq, Repr

/-- `DownloadRequest` (download_manager.rs:70). -/
structure DownloadRequest where
  id : String
  url : String
  quality : String
  format : String
  output_dir : String
  convert_format : Option ConversionFormat
  keep_original : Bool
deriving DecidableEq, Repr

/-- `DownloadStatus` (download_manager.rs:39). -/
inductive DownloadStatus
  | queued
  | downloading
  | converting
  | completed
  | failed
  | paused
  | cancelled
deriving DecidableEq, Repr

/-- `DownloadProgress` (download_manager.rs:57).  `progress` is an `f32`
in the source; the orchestrator only ever emits the integral values 0
and 100 (intermediate line-parse events are outside this model). -/
structure DownloadProgress where
  id : String
  status : DownloadStatus
  progress : Nat
  speed : Option String
  eta : Option String
  downloaded_bytes : Option Nat
  total_bytes : Option Nat
  error : Option String
  file_path : Option String
deriving DecidableEq, Repr

/-- `Default for DownloadProgress` (download_manager.rs:884). -/
def defaultProgress : DownloadProgress :=
  ⟨"", .queued, 0, none, none, none, none, none, none⟩

/-- The `Queued` event of `queue_download`. -/
def queuedEvt (id : String) : DownloadProgress :=
  { defaultProgress with id := id, status := .queued }

/-- The initial `Downloading{progress=0}` event of the worker. -/
def downloadingEvt (id : String) : DownloadProgress :=
  { defaultProgress with id := id, status := .downloading }

/-- The `Converting{progress=0}` event before a conversion. -/
def convertingEvt (id : String) : DownloadProgress :=
  { defaultProgress with id := id, status := .converting }

/-- A `Failed` event with an error message. -/
def failedEvt (id msg : String) : DownloadProgress :=
  { defaultProgress with id := id, status := .failed, error := some msg }

/-- The `Cancelled` event. -/
def cancelledEvt (id : String) : DownloadProgress :=
  { defaultProgress with id := id, status := .cancelled }

/-- The `Completed{progress=100, file_path}` event. -/
def completedEvt (id : String) (path : Option String) : DownloadProgress :=
  { defaultProgress with
    id := id, status := .completed, progress := 100, file_path := path }

/-- The network-policy failure message (download_manager.rs:561). -/
def netErrMsg (url : String) : String :=
  "Network access to \x27" ++ url ++ "\x27 is not allowed"

/-- Worker-task phase: before the select (validation, ytdlp lookup,
spawn), inside the select on child exit versus cancellation, finished. -/
inductive WPhase
  | start
  | running
  | done
deriving DecidableEq, Repr

/-- One spawned worker task.  `spawned` records whether an extractor
child process was created; `aborted` records the paths that return an
error without emitting any terminal event (missing extractor binary or
`cmd.spawn()` failure). -/
structure DlWorker where
  req : DownloadRequest
  phase : WPhase
  cancelPending : Bool
  spawned : Bool
  aborted : Bool
deriving DecidableEq, Repr

/-- A newly spawned worker. -/
def DlWorker.fresh (r : DownloadRequest) : DlWorker :=
  ⟨r, .start, false, false, false⟩

/-- Orchestrator state: FIFO queue, the `active_downloads` map (job id to
worker index, insertion order, HashMap-insert overwrite semantics),
every worker task ever spawned, the emitted event stream, the manager's
`max_concurrent_downloads` field, the cap captured by the currently (or
most recently) running queue processor at its spawn, the
`processing_queue` flag, and whether a `yt-dlp` binary was found. -/
structure DMState where
  queue : List DownloadRequest
  activeMap : List (String × Nat)
  workers : List DlWorker
  events : List DownloadProgress
  maxConcurrent : Nat
  capAtSpawn : Nat
  processing : Bool
  ytdlp : Bool
deriving DecidableEq, Repr

/-- A fresh manager: empty, default cap 5 (download_manager.rs:105). -/
def dmInit (ytdlp : Bool) : DMState :=
  ⟨[], [], [], [], 5, 5, false, ytdlp⟩

/-- Action labels; see the section comment. -/
inductive DMAct
  | enqueue (r : DownloadRequest)
  | setMax (n : Nat)
  | cancel (id : String)
  | schedStart
  | schedCleanup
  | schedStop
  | wValidateFail (i : Nat)
  | wNoYtdlp (i : Nat)
  | wBegin (i : Nat) (spawnOk : Bool)
  | wExitFail (i : Nat)
  | wExitOk (i : Nat) (listing : List DirEntry)
  | wConvNoFile (i : Nat) (listing : List DirEntry)
  | wConvFail (i : Nat) (listing : List DirEntry)
  | wConvOk (i : Nat) (listing listing2 : List DirEntry)
  | wCancelRecv (i : Nat)
deriving DecidableEq, Repr

/-- `HashMap::get`-style lookup in the active map. -/
def lookupActive (m : List (String × Nat)) (id : String) : Option Nat :=
  match m.find? (fun p => p.1 == id) with
  | some p => some p.2
  | none => none

/-- `HashMap::insert`: overwrite an existing binding, else append. -/
def insertActive (m : List (String × Nat)) (id : String) (w : Nat) :
    List (String × Nat) :=
  if (m.find? (fun p => p.1 == id)).isSome then
    m.map (fun p => if p.1 == id then (id, w) else p)
  else m ++ [(id, w)]

/-- `HashMap::remove`. -/
def removeActive (m : List (String × Nat)) (id : String) : List (String × Nat) :=
  m.filter (fun p => ¬ p.1 == id)

/-- Is the worker task at this index finished (`JoinHandle::is_finished`;
a dangling index counts as finished). -/
def workerDone (s : DMState) (i : Nat) : Bool :=
  match s.workers[i]? with
  | some w => w.phase == .done
  | none => true

/-- The transition function.  Each action applies when its guard holds
and is a no-op otherwise; every `tx.send` appends to the event log. -/
def dmStep (s : DMState) (a : DMAct) : DMState :=
  match a with
  | .enqueue r =>
    let s1 := { s with
      queue := s.queue ++ [r], events := s.events ++ [queuedEvt r.id] }
    if s1.processing then s1
    else { s1 with processing := true, capAtSpawn := s1.maxConcurrent }
  | .setMax n =>
    { s with maxConcurrent := min (max n 1) 10 }
  | .cancel id =>
    match lookupActive s.activeMap id with
    | none => s
    | some w =>
      let s1 := { s with activeMap := removeActive s.activeMap id }
      if workerDone s1 w then s1
      else
        match s1.workers[w]? with
        | some wk =>
          { s1 with workers := s1.workers.set w { wk with cancelPending := true } }
        | none => s1
  | .schedStart =>
    if s.processing then
      match s.queue with
      | [] => s
      | r :: rest =>
        if s.activeMap.length < s.capAtSpawn then
          { s with
            queue := rest,
            activeMap := insertActive s.activeMap r.id s.workers.length,
            workers := s.workers ++ [DlWorker.fresh r] }
        else s
    else s
  | .schedCleanup =>
    if s.processing then
      { s with activeMap := s.activeMap.filter (fun p => ¬ workerDone s p.2) }
    else s
  | .schedStop =>
    if s.processing = true ∧ s.queue = [] ∧ s.activeMap = [] then
      { s with processing := false }
    else s
  | .wValidateFail i =>
    match s.workers[i]? with
    | some w =>
      if w.phase = .start ∧ validate_network_access w.req.url = false then
        { s with
          workers := s.workers.set i { w with phase := .done },
          events := s.events ++ [failedEvt w.req.id (netErrMsg w.req.url)] }
      else s
    | none => s
  | .wNoYtdlp i =>
    match s.workers[i]? with
    | some w =>
      if w.phase = .start ∧ validate_network_access w.req.url = true ∧
          s.ytdlp = false then
        { s with workers := s.workers.set i { w with phase := .done, aborted := true } }
      else s
    | none => s
  | .wBegin i ok =>
    match s.workers[i]? with
    | some w =>
      if w.phase = .start ∧ validate_network_access w.req.url = true ∧
          s.ytdlp = true then
        if ok then
          { s with
            workers := s.workers.set i { w with phase := .running, spawned := true },
            events := s.events ++ [downloadingEvt w.req.id] }
        else
          { s with
            workers := s.workers.set i { w with phase := .done, aborted := true },
            events := s.events ++ [downloadingEvt w.req.id] }
      else s
    | none => s
  | .wExitFail i =>
    match s.workers[i]? with
    | some w =>
      if w.phase = .running then
        { s with
          workers := s.workers.set i { w with phase := .done },
          events := s.events ++ [failedEvt w.req.id "Download process failed"] }
      else s
    | none => s
  | .wExitOk i listing =>
    match s.workers[i]? with
    | some w =>
      if w.phase = .running ∧ w.req.convert_format = none then
        { s with
          workers := s.workers.set i { w with phase := .done },
          events := s.events ++
            [completedEvt w.req.id
              ((find_downloaded_file listing).map (fun e => e.name))] }
      else s
    | none => s
  | .wConvNoFile i listing =>
    match s.workers[i]? with
    | some w =>
      if w.phase = .running ∧ (w.req.convert_format).isSome = true ∧
          find_downloaded_file listing = none then
        { s with
          workers := s.workers.set i { w with phase := .done },
          events := s.events ++
            [convertingEvt w.req.id,
             failedEvt w.req.id
               "Could not find downloaded file: No video files found in download directory"] }
      else s
    | none => s
  | .wConvFail i listing =>
    match s.workers[i]? with
    | some w =>
      if w.phase = .running ∧ (w.req.convert_format).isSome = true ∧
          (find_downloaded_file listing).isSome = true then
        { s with
          workers := s.workers.set i { w with phase := .done },
          events := s.events ++
            [convertingEvt w.req.id, failedEvt w.req.id "Conversion failed"] }
      else s
    | none => s
  | .wConvOk i listing listing2 =>
    match s.workers[i]? with
    | some w =>
      if w.phase = .running ∧ (w.req.convert_format).isSome = true ∧
          (find_downloaded_file listing).isSome = true then
        { s with
          workers := s.workers.set i { w with phase := .done },
          events := s.events ++
            [convertingEvt w.req.id,
             completedEvt w.req.id
               ((find_downloaded_file listing2).map (fun e => e.name))] }
      else s
    | none => s
  | .wCancelRecv i =>
    match s.workers[i]? with
    | some w =>
      if w.phase = .running ∧ w.cancelPending = true then
        { s with
          workers := s.workers.set i { w with phase := .done },
          events := s.events ++ [cancelledEvt w.req.id] }
      else s
    | none => s

/-- A run of the orchestrator: fold the step function over an action
list. -/
def dmExec (s : DMState) (acts : List DMAct) : DMState :=
  acts.foldl dmStep s

/-- Terminal statuses. -/
def isTerminal : DownloadStatus → Bool
  | .completed => true
  | .failed => true
  | .cancelled => true
  | _ => false

/-- Number of terminal events emitted for a job id. -/
def countTerminal (evs : List DownloadProgress) (id : String) : Nat :=
  evs.countP (fun e => e.id == id && isTerminal e.status)

/-- Number of Queued events emitted for a job id (= accepted enqueues). -/
def countQueuedEvts (evs : List DownloadProgress) (id : String) : Nat :=
  evs.countP (fun e => e.id == id && e.status == DownloadStatus.queued)

/-- Number of Cancelled events emitted for a job id. -/
def countCancelledEvts (evs : List DownloadProgress) (id : String) : Nat :=
  evs.countP (fun e => e.id == id && e.status == DownloadStatus.cancelled)

/-- Workers for this id that finished through an event-emitting path. -/
def doneNonAborted (ws : List DlWorker) (id : String) : Nat :=
  ws.countP (fun w => w.req.id == id && w.phase == WPhase.done && !w.aborted)

/-- The job state a subscriber observes: the status of the last event
emitted for the id. -/
def lastStatus (s : DMState) (id : String) : Option DownloadStatus :=
  ((s.events.filter (fun e => e.id == id)).getLast?).map (fun e => e.status)

/-- Every id that has appeared on the event stream. -/
def jobIds (s : DMState) : List String :=
  (s.events.map (fun e => e.id)).dedup

/-- How many jobs are observably in Downloading or Converting state. -/
def activeStatusCount (s : DMState) : Nat :=
  (jobIds s).countP (fun id =>
    lastStatus s id == some DownloadStatus.downloading ||
    lastStatus s id == some DownloadStatus.converting)

/-- No internal step can change a quiescent state: queue drained, map
empty, processor stopped, all workers finished. -/
def quiescentB (s : DMState) : Bool :=
  s.queue.isEmpty && s.activeMap.isEmpty && !s.processing &&
  s.workers.all (fun w => w.phase == WPhase.done)

/-- Internal actions: scheduler iterations and worker phases (everything
except the caller-driven enqueue/cancel/set-max). -/
def internalAct : DMAct → Bool
  | .enqueue _ => false
  | .setMax _ => false
  | .cancel _ => false
  | _ => true

/-! ### Orchestrator invariants

The master invariant `DMInv` is preserved by every action; it packages
the cap bounds, the active-map bound, the abort bookkeeping, the
network-policy worker property, the shape of `Completed` events, and
the terminal-event accounting. -/

theorem countP_set {α : Type} (p : α → Bool) :
    ∀ (l : List α) (i : Nat) (w v : α), l[i]? = some w →
      (l.set i v).countP p + (if p w then 1 else 0) =
        l.countP p + (if p v then 1 else 0)
  | [], i, w, v, h => by simp at h
  | a :: t, 0, w, v, h => by
    simp at h
    subst h
    simp [List.countP_cons]
    omega
  | a :: t, i+1, w, v, h => by
    simp at h
    have ih := countP_set p t i w v h
    simp [List.countP_cons]
    omega

theorem length_insertActive (m : List (String × Nat)) (id : String) (w : Nat) :
    (insertActive m id w).length ≤ m.length + 1 := by
  unfold insertActive
  split
  · simp
  · simp

theorem lookupActive_removeActive (m : List (String × Nat)) (id : String) :
    lookupActive (removeActive m id) id = none := by
  unfold lookupActive removeActive
  rw [List.find?_eq_none.mpr]
  intro p hp
  have := (List.mem_filter.mp hp).2
  simp at this ⊢
  exact this

theorem countP_mono_pred {α : Type} (p q : α → Bool) (l : List α)
    (h : ∀ a ∈ l, p a = true → q a = true) : l.countP p ≤ l.countP q := by
  induction l with
  | nil => simp
  | cons a t ih =>
    simp [List.countP_cons]
    have h1 := h a (by simp)
    have h2 : t.countP p ≤ t.countP q := ih (fun x hx => h x (by simp [hx]))
    by_cases hp : p a = true
    · simp [hp, h1 hp]; omega
    · simp [Bool.not_eq_true] at hp
      simp [hp]
      omega

theorem mem_of_idx {α : Type} {l : List α} {i : Nat} {a : α}
    (h : l[i]? = some a) : a ∈ l :=
  List.getElem?_mem h

structure DMInv (s : DMState) : Prop where
  maxLo : 1 ≤ s.maxConcurrent
  maxHi : s.maxConcurrent ≤ 10
  capLo : 1 ≤ s.capAtSpawn
  capHi : s.capAtSpawn ≤ 10
  mapLen : s.activeMap.length ≤ s.capAtSpawn
  idleEmpty : s.processing = false → s.activeMap = []
  abortedDone : ∀ w ∈ s.workers, w.aborted = true → w.phase = WPhase.done
  invalidUrl : ∀ w ∈ s.workers, validate_network_access w.req.url = false →
      w.spawned = false ∧ w.phase ≠ WPhase.running ∧
      (w.phase = WPhase.done →
        failedEvt w.req.id (netErrMsg w.req.url) ∈ s.events)
  completedOk : ∀ e ∈ s.events, e.status = DownloadStatus.completed →
      e.progress = 100 ∧ e.error = none
  terminalCount : ∀ id, countTerminal s.events id = doneNonAborted s.workers id
  queuedCount : ∀ id, countQueuedEvts s.events id =
      s.queue.countP (fun r => r.id == id) +
      s.workers.countP (fun w => w.req.id == id)

theorem dmInv_init (y : Bool) : DMInv (dmInit y) := by
  refine ⟨?_, ?_, ?_, ?_, ?_, ?_, ?_, ?_, ?_, ?_, ?_⟩ <;>
    simp [dmInit, countTerminal, countQueuedEvts, doneNonAborted]

theorem DMInv.update {s : DMState} (h : DMInv s) (i : Nat) (w v : DlWorker)
    (evs : List DownloadProgress)
    (hw : s.workers[i]? = some w)
    (hreq : v.req = w.req)
    (habort : v.aborted = true → v.phase = WPhase.done)
    (hvalid : validate_network_access w.req.url = false →
        v.spawned = false ∧ v.phase ≠ WPhase.running ∧
        (v.phase = WPhase.done →
          failedEvt w.req.id (netErrMsg w.req.url) ∈ s.events ++ evs))
    (hcomp : ∀ e ∈ evs, e.status = DownloadStatus.completed →
        e.progress = 100 ∧ e.error = none)
    (hterm : ∀ id, countTerminal evs id +
        (if (w.req.id == id && w.phase == WPhase.done && !w.aborted) = true
          then 1 else 0) =
        (if (v.req.id == id && v.phase == WPhase.done && !v.aborted) = true
          then 1 else 0))
    (hq : ∀ id, countQueuedEvts evs id = 0) :
    DMInv { s with workers := s.workers.set i v, events := s.events ++ evs } := by
  refine ⟨h.maxLo, h.maxHi, h.capLo, h.capHi, h.mapLen, h.idleEmpty, ?_, ?_, ?_, ?_, ?_⟩
  · intro x hx hab
    rcases List.mem_or_eq_of_mem_set hx with hx | rfl
    · exact h.abortedDone x hx hab
    · exact habort hab
  · intro x hx hv
    rcases List.mem_or_eq_of_mem_set hx with hx | rfl
    · obtain ⟨h1, h2, h3⟩ := h.invalidUrl x hx hv
      exact ⟨h1, h2, fun hd => List.mem_append_left _ (h3 hd)⟩
    · rw [hreq] at hv ⊢
      exact hvalid hv
  · intro e he hc
    rcases List.mem_append.mp he with he | he
    · exact h.completedOk e he hc
    · exact hcomp e he hc
  · intro id
    have hset := countP_set
      (fun x => x.req.id == id && x.phase == WPhase.done && !x.aborted)
      s.workers i w v hw
    have hold := h.terminalCount id
    have ht := hterm id
    simp only [countTerminal, doneNonAborted, List.countP_append] at hset hold ht ⊢
    dsimp only at hset
    omega
  · intro id
    have hset := countP_set (fun x => x.req.id == id) s.workers i w v hw
    have hold := h.queuedCount id
    have h0 := hq id
    simp only [countQueuedEvts, List.countP_append] at hset hold h0 ⊢
    dsimp only at hset
    rw [hreq] at hset
    omega

theorem countP_one {α : Type} (p : α → Bool) (a : α) :
    List.countP p [a] = if p a = true then 1 else 0 := by
  simp [List.countP_cons]

theorem countTerminal_append (e1 e2 : List DownloadProgress) (id : String) :
    countTerminal (e1 ++ e2) id = countTerminal e1 id + countTerminal e2 id := by
  simp [countTerminal, List.countP_append]

theorem countQueued_append (e1 e2 : List DownloadProgress) (id : String) :
    countQueuedEvts (e1 ++ e2) id =
      countQueuedEvts e1 id + countQueuedEvts e2 id := by
  simp [countQueuedEvts, List.countP_append]

theorem countTerminal_queuedEvt (rid id : String) :
    countTerminal [queuedEvt rid] id = 0 := by
  simp [countTerminal, List.countP_cons, queuedEvt, defaultProgress, isTerminal]

theorem countTerminal_downloadingEvt (rid id : String) :
    countTerminal [downloadingEvt rid] id = 0 := by
  simp [countTerminal, List.countP_cons, downloadingEvt, defaultProgress,
    isTerminal]

theorem countTerminal_convertingEvt (rid id : String) :
    countTerminal [convertingEvt rid] id = 0 := by
  simp [countTerminal, List.countP_cons, convertingEvt, defaultProgress,
    isTerminal]

theorem countTerminal_failedEvt (rid msg id : String) :
    countTerminal [failedEvt rid msg] id = if (rid == id) = true then 1 else 0 := by
  simp only [countTerminal, List.countP_cons, List.countP_nil, failedEvt,
    defaultProgress, isTerminal]
  cases hb : rid == id <;> simp

theorem countTerminal_cancelledEvt (rid id : String) :
    countTerminal [cancelledEvt rid] id = if (rid == id) = true then 1 else 0 := by
  simp only [countTerminal, List.countP_cons, List.countP_nil, cancelledEvt,
    defaultProgress, isTerminal]
  cases hb : rid == id <;> simp

theorem countTerminal_completedEvt (rid : String) (p : Option String) (id : String) :
    countTerminal [completedEvt rid p] id = if (rid == id) = true then 1 else 0 := by
  simp only [countTerminal, List.countP_cons, List.countP_nil, completedEvt,
    defaultProgress, isTerminal]
  cases hb : rid == id <;> simp

theorem countQueued_queuedEvt (rid id : String) :
    countQueuedEvts [queuedEvt rid] id = if (rid == id) = true then 1 else 0 := by
  simp only [countQueuedEvts, List.countP_cons, List.countP_nil, queuedEvt,
    defaultProgress]
  cases hb : rid == id <;> simp

theorem countQueued_downloadingEvt (rid id : String) :
    countQueuedEvts [downloadingEvt rid] id = 0 := by
  simp [countQueuedEvts, List.countP_cons, downloadingEvt, defaultProgress]

theorem countQueued_convertingEvt (rid id : String) :
    countQueuedEvts [convertingEvt rid] id = 0 := by
  simp [countQueuedEvts, List.countP_cons, convertingEvt, defaultProgress]

theorem countQueued_failedEvt (rid msg id : String) :
    countQueuedEvts [failedEvt rid msg] id = 0 := by
  simp [countQueuedEvts, List.countP_cons, failedEvt, defaultProgress]

theorem countQueued_cancelledEvt (rid id : String) :
    countQueuedEvts [cancelledEvt rid] id = 0 := by
  simp [countQueuedEvts, List.countP_cons, cancelledEvt, defaultProgress]

theorem countQueued_completedEvt (rid : String) (p : Option String) (id : String) :
    countQueuedEvts [completedEvt rid p] id = 0 := by
  simp [countQueuedEvts, List.countP_cons, completedEvt, defaultProgress]

theorem dmInv_setMax (s : DMState) (n : Nat) (h : DMInv s) :
    DMInv (dmStep s (.setMax n)) := by
  simp only [dmStep]
  refine ⟨?_, ?_, h.capLo, h.capHi, h.mapLen, h.idleEmpty, h.abortedDone,
    h.invalidUrl, h.completedOk, h.terminalCount, h.queuedCount⟩ <;>
  · dsimp only
    omega

theorem dmInv_enqueue (s : DMState) (r : DownloadRequest) (h : DMInv s) :
    DMInv (dmStep s (.enqueue r)) := by
  have hs1 : DMInv { s with
      queue := s.queue ++ [r], events := s.events ++ [queuedEvt r.id] } := by
    refine ⟨h.maxLo, h.maxHi, h.capLo, h.capHi, h.mapLen, h.idleEmpty,
      h.abortedDone, ?_, ?_, ?_, ?_⟩
    · intro x hx hv
      obtain ⟨h1, h2, h3⟩ := h.invalidUrl x hx hv
      exact ⟨h1, h2, fun hd => List.mem_append_left _ (h3 hd)⟩
    · intro e he hc
      rcases List.mem_append.mp he with he | he
      · exact h.completedOk e he hc
      · rw [List.mem_singleton] at he
        subst he
        simp [queuedEvt, defaultProgress] at hc
    · intro id
      have hold := h.terminalCount id
      dsimp only
      rw [countTerminal_append, countTerminal_queuedEvt]
      omega
    · intro id
      have hold := h.queuedCount id
      dsimp only
      rw [countQueued_append, countQueued_queuedEvt, List.countP_append,
        countP_one]
      omega
  simp only [dmStep]
  by_cases hp : s.processing = true
  · rw [if_pos hp]
    exact hs1
  · rw [if_neg hp]
    simp only [Bool.not_eq_true] at hp
    refine ⟨h.maxLo, h.maxHi, h.maxLo, h.maxHi, ?_, ?_, hs1.abortedDone,
      hs1.invalidUrl, hs1.completedOk, hs1.terminalCount, hs1.queuedCount⟩
    · dsimp only
      rw [h.idleEmpty hp]
      exact Nat.zero_le _
    · intro hx
      cases hx

theorem doneNA_fresh (r : DownloadRequest) (id : String) :
    List.countP
      (fun w => w.req.id == id && w.phase == WPhase.done && !w.aborted)
      [DlWorker.fresh r] = 0 := by
  simp [List.countP_cons, DlWorker.fresh]

theorem countPid_fresh (r : DownloadRequest) (id : String) :
    List.countP (fun w => w.req.id == id) [DlWorker.fresh r] =
      if (r.id == id) = true then 1 else 0 := by
  simp only [List.countP_cons, List.countP_nil, DlWorker.fresh]
  cases hb : r.id == id <;> simp

theorem dmInv_schedStart (s : DMState) (h : DMInv s) :
    DMInv (dmStep s .schedStart) := by
  simp only [dmStep]
  by_cases hp : s.processing = true
  · rw [if_pos hp]
    rcases hq : s.queue with _ | ⟨r, rest⟩
    · exact h
    · dsimp only
      by_cases hlen : s.activeMap.length < s.capAtSpawn
      · rw [if_pos hlen]
        refine ⟨h.maxLo, h.maxHi, h.capLo, h.capHi, ?_, ?_, ?_, ?_,
          h.completedOk, ?_, ?_⟩
        · dsimp only
          have := length_insertActive s.activeMap r.id s.workers.length
          omega
        · intro hx
          rw [hp] at hx
          cases hx
        · intro x hx hab
          rcases List.mem_append.mp hx with hx | hx
          · exact h.abortedDone x hx hab
          · rw [List.mem_singleton] at hx
            subst hx
            cases hab
        · intro x hx hv
          rcases List.mem_append.mp hx with hx | hx
          · exact h.invalidUrl x hx hv
          · rw [List.mem_singleton] at hx
            subst hx
            exact ⟨rfl, fun hc => WPhase.noConfusion hc,
              fun hc => WPhase.noConfusion hc⟩
        · intro id
          have hold := h.terminalCount id
          dsimp only
          rw [doneNonAborted, List.countP_append, doneNA_fresh]
          rw [doneNonAborted] at hold
          omega
        · intro id
          have hold := h.queuedCount id
          rw [hq] at hold
          rw [List.countP_cons] at hold
          dsimp only
          rw [List.countP_append, countPid_fresh]
          omega
      · rw [if_neg hlen]
        exact h
  · rw [if_neg hp]
    exact h

theorem dmInv_schedCleanup (s : DMState) (h : DMInv s) :
    DMInv (dmStep s .schedCleanup) := by
  simp only [dmStep]
  by_cases hp : s.processing = true
  · rw [if_pos hp]
    refine ⟨h.maxLo, h.maxHi, h.capLo, h.capHi, ?_, ?_, h.abortedDone,
      h.invalidUrl, h.completedOk, h.terminalCount, h.queuedCount⟩
    · exact Nat.le_trans (List.length_filter_le _ _) h.mapLen
    · intro hx
      rw [hp] at hx
      cases hx
  · rw [if_neg hp]
    exact h

theorem dmInv_schedStop (s : DMState) (h : DMInv s) :
    DMInv (dmStep s .schedStop) := by
  simp only [dmStep]
  by_cases hg : s.processing = true ∧ s.queue = [] ∧ s.activeMap = []
  · rw [if_pos hg]
    exact ⟨h.maxLo, h.maxHi, h.capLo, h.capHi, h.mapLen, fun _ => hg.2.2,
      h.abortedDone, h.invalidUrl, h.completedOk, h.terminalCount, h.queuedCount⟩
  · rw [if_neg hg]
    exact h

theorem notDone_notAborted {s : DMState} (h : DMInv s) {w : DlWorker}
    (hmem : w ∈ s.workers) (hph : w.phase ≠ WPhase.done) : w.aborted = false := by
  by_cases hab : w.aborted = true
  · exact absurd (h.abortedDone w hmem hab) hph
  · simpa using hab

theorem dmInv_wValidateFail (s : DMState) (i : Nat) (h : DMInv s) :
    DMInv (dmStep s (.wValidateFail i)) := by
  cases hw : s.workers[i]? with
  | none => simpa only [dmStep, hw] using h
  | some w =>
    simp only [dmStep, hw]
    by_cases hg : w.phase = WPhase.start ∧
        validate_network_access w.req.url = false
    · rw [if_pos hg]
      have hab : w.aborted = false :=
        notDone_notAborted h (mem_of_idx hw) (by rw [hg.1]; exact fun hc => WPhase.noConfusion hc)
      refine DMInv.update h i w _ _ hw rfl (fun _ => rfl) ?_ ?_ ?_ ?_
      · intro hv
        refine ⟨(h.invalidUrl w (mem_of_idx hw) hv).1, ?_, ?_⟩
        · exact fun hc => WPhase.noConfusion hc
        · intro _
          simp
      · intro e he hc
        rw [List.mem_singleton] at he
        subst he
        simp [failedEvt, defaultProgress] at hc
      · intro id
        rw [countTerminal_failedEvt, hg.1, hab]
        simp
      · intro id
        exact countQueued_failedEvt _ _ _
    · rw [if_neg hg]
      exact h

theorem countTerminal_cons (e : DownloadProgress) (rest : List DownloadProgress)
    (id : String) :
    countTerminal (e :: rest) id = countTerminal [e] id + countTerminal rest id := by
  simp only [countTerminal, List.countP_cons, List.countP_nil]
  omega

theorem countQueued_cons (e : DownloadProgress) (rest : List DownloadProgress)
    (id : String) :
    countQueuedEvts (e :: rest) id =
      countQueuedEvts [e] id + countQueuedEvts rest id := by
  simp only [countQueuedEvts, List.countP_cons, List.countP_nil]
  omega

theorem dmInv_wNoYtdlp (s : DMState) (i : Nat) (h : DMInv s) :
    DMInv (dmStep s (.wNoYtdlp i)) := by
  cases hw : s.workers[i]? with
  | none => simpa only [dmStep, hw] using h
  | some w =>
    simp only [dmStep, hw]
    by_cases hg : w.phase = WPhase.start ∧
        validate_network_access w.req.url = true ∧ s.ytdlp = false
    · rw [if_pos hg]
      have hupd := DMInv.update h i w { w with phase := .done, aborted := true }
        [] hw rfl (fun _ => rfl) ?_ ?_ ?_ ?_
      · rwa [List.append_nil] at hupd
      · intro hv
        rw [hg.2.1] at hv
        cases hv
      · intro e he
        cases he
      · intro id
        rw [hg.1]
        simp [countTerminal]
      · intro id
        rfl
    · rw [if_neg hg]
      exact h

theorem dmInv_wBegin (s : DMState) (i : Nat) (ok : Bool) (h : DMInv s) :
    DMInv (dmStep s (.wBegin i ok)) := by
  cases hw : s.workers[i]? with
  | none => simpa only [dmStep, hw] using h
  | some w =>
    simp only [dmStep, hw]
    by_cases hg : w.phase = WPhase.start ∧
        validate_network_access w.req.url = true ∧ s.ytdlp = true
    · rw [if_pos hg]
      have hab : w.aborted = false :=
        notDone_notAborted h (mem_of_idx hw)
          (by rw [hg.1]; exact fun hc => WPhase.noConfusion hc)
      cases ok with
      | true =>
        rw [if_pos rfl]
        refine DMInv.update h i w _ _ hw rfl ?_ ?_ ?_ ?_ ?_
        · intro hx
          have hx2 : w.aborted = true := hx
          rw [hab] at hx2
          cases hx2
        · intro hv
          rw [hg.2.1] at hv
          cases hv
        · intro e he hc
          rw [List.mem_singleton] at he
          subst he
          simp [downloadingEvt, defaultProgress] at hc
        · intro id
          rw [countTerminal_downloadingEvt, hg.1]
          simp
        · intro id
          exact countQueued_downloadingEvt _ _
      | false =>
        rw [if_neg (by simp)]
        refine DMInv.update h i w _ _ hw rfl (fun _ => rfl) ?_ ?_ ?_ ?_
        · intro hv
          rw [hg.2.1] at hv
          cases hv
        · intro e he hc
          rw [List.mem_singleton] at he
          subst he
          simp [downloadingEvt, defaultProgress] at hc
        · intro id
          rw [countTerminal_downloadingEvt, hg.1]
          simp
        · intro id
          exact countQueued_downloadingEvt _ _
    · rw [if_neg hg]
      exact h

theorem dmInv_wExitFail (s : DMState) (i : Nat) (h : DMInv s) :
    DMInv (dmStep s (.wExitFail i)) := by
  cases hw : s.workers[i]? with
  | none => simpa only [dmStep, hw] using h
  | some w =>
    simp only [dmStep, hw]
    by_cases hg : w.phase = WPhase.running
    · rw [if_pos hg]
      have hab : w.aborted = false :=
        notDone_notAborted h (mem_of_idx hw)
          (by rw [hg]; exact fun hc => WPhase.noConfusion hc)
      refine DMInv.update h i w _ _ hw rfl (fun _ => rfl) ?_ ?_ ?_ ?_
      · intro hv
        exact absurd hg (h.invalidUrl w (mem_of_idx hw) hv).2.1
      · intro e he hc
        rw [List.mem_singleton] at he
        subst he
        simp [failedEvt, defaultProgress] at hc
      · intro id
        rw [countTerminal_failedEvt, hg, hab]
        simp
      · intro id
        exact countQueued_failedEvt _ _ _
    · rw [if_neg hg]
      exact h

theorem dmInv_wExitOk (s : DMState) (i : Nat) (listing : List DirEntry)
    (h : DMInv s) : DMInv (dmStep s (.wExitOk i listing)) := by
  cases hw : s.workers[i]? with
  | none => simpa only [dmStep, hw] using h
  | some w =>
    simp only [dmStep, hw]
    by_cases hg : w.phase = WPhase.running ∧ w.req.convert_format = none
    · rw [if_pos hg]
      have hab : w.aborted = false :=
        notDone_notAborted h (mem_of_idx hw)
          (by rw [hg.1]; exact fun hc => WPhase.noConfusion hc)
      refine DMInv.update h i w _ _ hw rfl (fun _ => rfl) ?_ ?_ ?_ ?_
      · intro hv
        exact absurd hg.1 (h.invalidUrl w (mem_of_idx hw) hv).2.1
      · intro e he hc
        rw [List.mem_singleton] at he
        subst he
        exact ⟨rfl, rfl⟩
      · intro id
        rw [countTerminal_completedEvt, hg.1, hab]
        simp
      · intro id
        exact countQueued_completedEvt _ _ _
    · rw [if_neg hg]
      exact h

theorem dmInv_wConvNoFile (s : DMState) (i : Nat) (listing : List DirEntry)
    (h : DMInv s) : DMInv (dmStep s (.wConvNoFile i listing)) := by
  cases hw : s.workers[i]? with
  | none => simpa only [dmStep, hw] using h
  | some w =>
    simp only [dmStep, hw]
    by_cases hg : w.phase = WPhase.running ∧ (w.req.convert_format).isSome = true ∧
        find_downloaded_file listing = none
    · rw [if_pos hg]
      have hab : w.aborted = false :=
        notDone_notAborted h (mem_of_idx hw)
          (by rw [hg.1]; exact fun hc => WPhase.noConfusion hc)
      refine DMInv.update h i w _ _ hw rfl (fun _ => rfl) ?_ ?_ ?_ ?_
      · intro hv
        exact absurd hg.1 (h.invalidUrl w (mem_of_idx hw) hv).2.1
      · intro e he hc
        rcases List.mem_cons.mp he with he | he
        · subst he
          simp [convertingEvt, defaultProgress] at hc
        · rw [List.mem_singleton] at he
          subst he
          simp [failedEvt, defaultProgress] at hc
      · intro id
        rw [countTerminal_cons, countTerminal_convertingEvt,
          countTerminal_failedEvt, hg.1, hab]
        simp
      · intro id
        rw [countQueued_cons, countQueued_convertingEvt, countQueued_failedEvt]
    · rw [if_neg hg]
      exact h

theorem dmInv_wConvFail (s : DMState) (i : Nat) (listing : List DirEntry)
    (h : DMInv s) : DMInv (dmStep s (.wConvFail i listing)) := by
  cases hw : s.workers[i]? with
  | none => simpa only [dmStep, hw] using h
  | some w =>
    simp only [dmStep, hw]
    by_cases hg : w.phase = WPhase.running ∧ (w.req.convert_format).isSome = true ∧
        (find_downloaded_file listing).isSome = true
    · rw [if_pos hg]
      have hab : w.aborted = false :=
        notDone_notAborted h (mem_of_idx hw)
          (by rw [hg.1]; exact fun hc => WPhase.noConfusion hc)
      refine DMInv.update h i w _ _ hw rfl (fun _ => rfl) ?_ ?_ ?_ ?_
      · intro hv
        exact absurd hg.1 (h.invalidUrl w (mem_of_idx hw) hv).2.1
      · intro e he hc
        rcases List.mem_cons.mp he with he | he
        · subst he
          simp [convertingEvt, defaultProgress] at hc
        · rw [List.mem_singleton] at he
          subst he
          simp [failedEvt, defaultProgress] at hc
      · intro id
        rw [countTerminal_cons, countTerminal_convertingEvt,
          countTerminal_failedEvt, hg.1, hab]
        simp
      · intro id
        rw [countQueued_cons, countQueued_convertingEvt, countQueued_failedEvt]
    · rw [if_neg hg]
      exact h

theorem dmInv_wConvOk (s : DMState) (i : Nat) (listing listing2 : List DirEntry)
    (h : DMInv s) : DMInv (dmStep s (.wConvOk i listing listing2)) := by
  cases hw : s.workers[i]? with
  | none => simpa only [dmStep, hw] using h
  | some w =>
    simp only [dmStep, hw]
    by_cases hg : w.phase = WPhase.running ∧ (w.req.convert_format).isSome = true ∧
        (find_downloaded_file listing).isSome = true
    · rw [if_pos hg]
      have hab : w.aborted = false :=
        notDone_notAborted h (mem_of_idx hw)
          (by rw [hg.1]; exact fun hc => WPhase.noConfusion hc)
      refine DMInv.update h i w _ _ hw rfl (fun _ => rfl) ?_ ?_ ?_ ?_
      · intro hv
        exact absurd hg.1 (h.invalidUrl w (mem_of_idx hw) hv).2.1
      · intro e he hc
        rcases List.mem_cons.mp he with he | he
        · subst he
          simp [convertingEvt, defaultProgress] at hc
        · rw [List.mem_singleton] at he
          subst he
          exact ⟨rfl, rfl⟩
      · intro id
        rw [countTerminal_cons, countTerminal_convertingEvt,
          countTerminal_completedEvt, hg.1, hab]
        simp
      · intro id
        rw [countQueued_cons, countQueued_convertingEvt, countQueued_completedEvt]
    · rw [if_neg hg]
      exact h

theorem dmInv_wCancelRecv (s : DMState) (i : Nat) (h : DMInv s) :
    DMInv (dmStep s (.wCancelRecv i)) := by
  cases hw : s.workers[i]? with
  | none => simpa only [dmStep, hw] using h
  | some w =>
    simp only [dmStep, hw]
    by_cases hg : w.phase = WPhase.running ∧ w.cancelPending = true
    · rw [if_pos hg]
      have hab : w.aborted = false :=
        notDone_notAborted h (mem_of_idx hw)
          (by rw [hg.1]; exact fun hc => WPhase.noConfusion hc)
      refine DMInv.update h i w _ _ hw rfl (fun _ => rfl) ?_ ?_ ?_ ?_
      · intro hv
        exact absurd hg.1 (h.invalidUrl w (mem_of_idx hw) hv).2.1
      · intro e he hc
        rw [List.mem_singleton] at he
        subst he
        simp [cancelledEvt, defaultProgress] at hc
      · intro id
        rw [countTerminal_cancelledEvt, hg.1, hab]
        simp
      · intro id
        exact countQueued_cancelledEvt _ _
    · rw [if_neg hg]
      exact h

theorem dmInv_cancel (s : DMState) (id : String) (h : DMInv s) :
    DMInv (dmStep s (.cancel id)) := by
  simp only [dmStep]
  cases hlk : lookupActive s.activeMap id with
  | none => exact h
  | some wi =>
    have hs1 : DMInv { s with activeMap := removeActive s.activeMap id } := by
      refine ⟨h.maxLo, h.maxHi, h.capLo, h.capHi, ?_, ?_, h.abortedDone,
        h.invalidUrl, h.completedOk, h.terminalCount, h.queuedCount⟩
      · exact Nat.le_trans (List.length_filter_le _ _) h.mapLen
      · intro hp
        dsimp only
        rw [h.idleEmpty hp]
        rfl
    dsimp only
    by_cases hd :
        workerDone { s with activeMap := removeActive s.activeMap id } wi = true
    · rw [if_pos hd]
      exact hs1
    · rw [if_neg hd]
      cases hww : s.workers[wi]? with
      | none => exact hs1
      | some wk =>
        have hupd := DMInv.update hs1 wi wk { wk with cancelPending := true }
          [] hww rfl ?_ ?_ ?_ ?_ ?_
        · rwa [List.append_nil] at hupd
        · intro hx
          exact hs1.abortedDone wk (mem_of_idx hww) hx
        · intro hv
          obtain ⟨h1, h2, h3⟩ := hs1.invalidUrl wk (mem_of_idx hww) hv
          exact ⟨h1, h2, fun hdone => List.mem_append_left _ (h3 hdone)⟩
        · intro e he
          cases he
        · intro id2
          simp [countTerminal]
        · intro id2
          rfl

theorem dmInv_step (s : DMState) (a : DMAct) (h : DMInv s) :
    DMInv (dmStep s a) := by
  cases a with
  | enqueue r => exact dmInv_enqueue s r h
  | setMax n => exact dmInv_setMax s n h
  | cancel id => exact dmInv_cancel s id h
  | schedStart => exact dmInv_schedStart s h
  | schedCleanup => exact dmInv_schedCleanup s h
  | schedStop => exact dmInv_schedStop s h
  | wValidateFail i => exact dmInv_wValidateFail s i h
  | wNoYtdlp i => exact dmInv_wNoYtdlp s i h
  | wBegin i ok => exact dmInv_wBegin s i ok h
  | wExitFail i => exact dmInv_wExitFail s i h
  | wExitOk i listing => exact dmInv_wExitOk s i listing h
  | wConvNoFile i listing => exact dmInv_wConvNoFile s i listing h
  | wConvFail i listing => exact dmInv_wConvFail s i listing h
  | wConvOk i l1 l2 => exact dmInv_wConvOk s i l1 l2 h
  | wCancelRecv i => exact dmInv_wCancelRecv s i h

theorem dmInv_exec_of (acts : List DMAct) :
    ∀ (s : DMState), DMInv s → DMInv (dmExec s acts) := by
  induction acts with
  | nil => intro s hs; exact hs
  | cons a t ih => intro s hs; exact ih (dmStep s a) (dmInv_step s a hs)

theorem dmInv_exec (y : Bool) (acts : List DMAct) :
    DMInv (dmExec (dmInit y) acts) :=
  dmInv_exec_of acts (dmInit y) (dmInv_init y)

theorem quiescent_internal_noop (s : DMState) (a : DMAct)
    (hq : quiescentB s = true) (hi : internalAct a = true) : dmStep s a = s := by
  simp only [quiescentB, Bool.and_eq_true, List.isEmpty_iff, Bool.not_eq_true,
    List.all_eq_true] at hq
  obtain ⟨⟨⟨hque, hmap⟩, hproc⟩, hdone⟩ := hq
  have hproc2 : s.processing = false := by simpa using hproc
  cases a with
  | enqueue r => cases hi
  | setMax n => cases hi
  | cancel id => cases hi
  | schedStart =>
    simp only [dmStep]
    rw [if_neg (by rw [hproc2]; exact fun hc => Bool.noConfusion hc)]
  | schedCleanup =>
    simp only [dmStep]
    rw [if_neg (by rw [hproc2]; exact fun hc => Bool.noConfusion hc)]
  | schedStop =>
    simp only [dmStep]
    rw [if_neg (by intro hc; rw [hproc2] at hc; cases hc.1)]
  | wValidateFail i =>
    cases hw : s.workers[i]? with
    | none => simp only [dmStep, hw]
    | some w =>
      have hwd : w.phase = WPhase.done := by
        have := hdone w (mem_of_idx hw)
        simpa using this
      simp only [dmStep, hw]
      rw [if_neg (by intro hc; rw [hwd] at hc; cases hc.1)]
  | wNoYtdlp i =>
    cases hw : s.workers[i]? with
    | none => simp only [dmStep, hw]
    | some w =>
      have hwd : w.phase = WPhase.done := by
        have := hdone w (mem_of_idx hw)
        simpa using this
      simp only [dmStep, hw]
      rw [if_neg (by intro hc; rw [hwd] at hc; cases hc.1)]
  | wBegin i ok =>
    cases hw : s.workers[i]? with
    | none => simp only [dmStep, hw]
    | some w =>
      have hwd : w.phase = WPhase.done := by
        have := hdone w (mem_of_idx hw)
        simpa using this
      simp only [dmStep, hw]
      rw [if_neg (by intro hc; rw [hwd] at hc; cases hc.1)]
  | wExitFail i =>
    cases hw : s.workers[i]? with
    | none => simp only [dmStep, hw]
    | some w =>
      have hwd : w.phase = WPhase.done := by
        have := hdone w (mem_of_idx hw)
        simpa using this
      simp only [dmStep, hw]
      rw [if_neg (by intro hc; rw [hwd] at hc; cases hc)]
  | wExitOk i listing =>
    cases hw : s.workers[i]? with
    | none => simp only [dmStep, hw]
    | some w =>
      have hwd : w.phase = WPhase.done := by
        have := hdone w (mem_of_idx hw)
        simpa using this
      simp only [dmStep, hw]
      rw [if_neg (by intro hc; rw [hwd] at hc; cases hc.1)]
  | wConvNoFile i listing =>
    cases hw : s.workers[i]? with
    | none => simp only [dmStep, hw]
    | some w =>
      have hwd : w.phase = WPhase.done := by
        have := hdone w (mem_of_idx hw)
        simpa using this
      simp only [dmStep, hw]
      rw [if_neg (by intro hc; rw [hwd] at hc; cases hc.1)]
  | wConvFail i listing =>
    cases hw : s.workers[i]? with
    | none => simp only [dmStep, hw]
    | some w =>
      have hwd : w.phase = WPhase.done := by
        have := hdone w (mem_of_idx hw)
        simpa using this
      simp only [dmStep, hw]
      rw [if_neg (by intro hc; rw [hwd] at hc; cases hc.1)]
  | wConvOk i l1 l2 =>
    cases hw : s.workers[i]? with
    | none => simp only [dmStep, hw]
    | some w =>
      have hwd : w.phase = WPhase.done := by
        have := hdone w (mem_of_idx hw)
        simpa using this
      simp only [dmStep, hw]
      rw [if_neg (by intro hc; rw [hwd] at hc; cases hc.1)]
  | wCancelRecv i =>
    cases hw : s.workers[i]? with
    | none => simp only [dmStep, hw]
    | some w =>
      have hwd : w.phase = WPhase.done := by
        have := hdone w (mem_of_idx hw)
        simpa using this
      simp only [dmStep, hw]
      rw [if_neg (by intro hc; rw [hwd] at hc; cases hc.1)]

/-! ### Concrete requests and traces for the orchestrator claims -/

/-- A benign request to a whitelisted host. -/
def dmReqA : DownloadRequest :=
  ⟨"A", "https://www.youtube.com/watch", "best", "mp4", "/tmp", none, false⟩

/-- A second benign request. -/
def dmReqB : DownloadRequest :=
  ⟨"B", "https://www.youtube.com/watch", "best", "mp4", "/tmp", none, false⟩

/-- A request whose host is not on the whitelist. -/
def dmReqEvil : DownloadRequest :=
  ⟨"E", "https://evil.com/watch", "best", "mp4", "/tmp", none, false⟩

/-- C1 counterexample trace: the spawn of the extractor process fails
(`cmd.spawn()` returns `Err`): the worker returns early and no terminal
event is ever emitted for "A"; the run ends quiescent. -/
def c1acts : List DMAct :=
  [.enqueue dmReqA, .schedStart, .wBegin 0 false, .schedCleanup, .schedStop]

/-- C1: every terminal event is accounted for by a finished worker that
took an emitting path, and there is at most one terminal event per
accepted enqueue; the "at least one" half of the claim fails (see the
counterexample). -/
theorem c1_terminal_event_accounting (y : Bool) (acts : List DMAct)
    (id : String) :
    countTerminal (dmExec (dmInit y) acts).events id =
      doneNonAborted (dmExec (dmInit y) acts).workers id ∧
    countTerminal (dmExec (dmInit y) acts).events id ≤
      countQueuedEvts (dmExec (dmInit y) acts).events id := by
  have h := dmInv_exec y acts
  refine ⟨h.terminalCount id, ?_⟩
  rw [h.terminalCount id, h.queuedCount id]
  have hmono := countP_mono_pred
    (fun w => w.req.id == id && w.phase == WPhase.done && !w.aborted)
    (fun w => w.req.id == id) (dmExec (dmInit y) acts).workers ?_
  · unfold doneNonAborted
    omega
  · intro a ha hp
    simp only [Bool.and_eq_true] at hp
    exact hp.1.1

/-- C1 counterexample: on the spawn-failure trace the request is
accepted (one Queued event) but the whole run ends quiescent with zero
terminal events for "A". -/
theorem c1_counterexample :
    countQueuedEvts (dmExec (dmInit true) c1acts).events "A" = 1 ∧
    countTerminal (dmExec (dmInit true) c1acts).events "A" = 0 ∧
    quiescentB (dmExec (dmInit true) c1acts) = true :=
  ⟨rfl, rfl, rfl⟩

/-- C2 counterexample trace: cap 1; job A starts downloading, is
cancelled (map entry removed, cancellation flagged but not yet
delivered), then job B is admitted and starts while A's extractor
process is still running. -/
def c2acts : List DMAct :=
  [.setMax 1, .enqueue dmReqA, .schedStart, .wBegin 0 true, .cancel "A",
   .enqueue dmReqB, .schedStart, .wBegin 1 true]

/-- C2: the cap invariants that do hold: the default is 5, the cap
stays in [1,10], and the active-jobs MAP never exceeds the cap captured
at processor spawn.  The observable number of Downloading/Converting
jobs is not so bounded (see the counterexample). -/
theorem c2_active_cap_invariant (y : Bool) (acts : List DMAct) :
    (dmInit y).maxConcurrent = 5 ∧
    1 ≤ (dmExec (dmInit y) acts).maxConcurrent ∧
    (dmExec (dmInit y) acts).maxConcurrent ≤ 10 ∧
    (dmExec (dmInit y) acts).activeMap.length ≤
      (dmExec (dmInit y) acts).capAtSpawn ∧
    1 ≤ (dmExec (dmInit y) acts).capAtSpawn ∧
    (dmExec (dmInit y) acts).capAtSpawn ≤ 10 := by
  have h := dmInv_exec y acts
  exact ⟨rfl, h.maxLo, h.maxHi, h.mapLen, h.capLo, h.capHi⟩

/-- C2 counterexample: with the cap at 1 (both the field and the
captured copy), two jobs are simultaneously in Downloading state and
two extractor processes are simultaneously live. -/
theorem c2_counterexample :
    (dmExec (dmInit true) c2acts).maxConcurrent = 1 ∧
    (dmExec (dmInit true) c2acts).capAtSpawn = 1 ∧
    activeStatusCount (dmExec (dmInit true) c2acts) = 2 ∧
    (dmExec (dmInit true) c2acts).workers.countP
      (fun w => w.spawned && w.phase == WPhase.running) = 2 :=
  ⟨rfl, rfl, rfl, rfl⟩

/-- C3 trace: the unwhitelisted request is scheduled and its worker
runs the network-access check. -/
def c3acts : List DMAct :=
  [.enqueue dmReqEvil, .schedStart, .wValidateFail 0]

/-- The worker state after the failed validation. -/
def c3worker : DlWorker :=
  ⟨dmReqEvil, .done, false, false, false⟩

/-- C3: a worker whose URL fails the whitelist check never spawns a
child process, is never in the running phase, and if it has finished it
emitted the network-policy Failed event. -/
theorem c3_unwhitelisted_host_blocked (y : Bool) (acts : List DMAct)
    (i : Nat) (w : DlWorker)
    (hw : (dmExec (dmInit y) acts).workers[i]? = some w)
    (hv : validate_network_access w.req.url = false) :
    w.spawned = false ∧ w.phase ≠ WPhase.running ∧
    (w.phase = WPhase.done →
      failedEvt w.req.id (netErrMsg w.req.url) ∈
        (dmExec (dmInit y) acts).events) :=
  (dmInv_exec y acts).invalidUrl w (mem_of_idx hw) hv

/-- C3 witness: the evil-host trace exercises the theorem. -/
theorem c3_unwhitelisted_host_blocked_witness :
    (dmExec (dmInit true) c3acts).workers[0]? = some c3worker ∧
    validate_network_access c3worker.req.url = false ∧
    (c3worker.spawned = false ∧ c3worker.phase ≠ WPhase.running ∧
      (c3worker.phase = WPhase.done →
        failedEvt c3worker.req.id (netErrMsg c3worker.req.url) ∈
          (dmExec (dmInit true) c3acts).events)) :=
  ⟨rfl, rfl, c3_unwhitelisted_host_blocked true c3acts 0 c3worker rfl rfl⟩

/-- C7 prefix trace: job A downloads successfully. -/
def c7pre : List DMAct :=
  [.enqueue dmReqA, .schedStart, .wBegin 0 true]

/-- The running worker after `c7pre`. -/
def c7worker : DlWorker :=
  ⟨dmReqA, .running, false, true, false⟩

/-- A directory listing holding one eligible media file. -/
def c7listing : List DirEntry :=
  [⟨"v.mp4", 3⟩]

/-- C7 counterexample trace: successful exit but the output directory
listing is empty. -/
def c7acts : List DMAct :=
  c7pre ++ [.wExitOk 0 []]

/-- C7: every Completed event carries progress 100 and no error, and
the file path it carries is exactly the artifact locator's result on
the directory listing read at emission time; that result can be None
(see the counterexample), so Completed does not guarantee a resolved
on-disk path. -/
theorem c7_completed_event_shape :
    (∀ (y : Bool) (acts : List DMAct) (e : DownloadProgress),
        e ∈ (dmExec (dmInit y) acts).events →
        e.status = DownloadStatus.completed →
        e.progress = 100 ∧ e.error = none) ∧
    (∀ (s : DMState) (i : Nat) (w : DlWorker) (listing : List DirEntry),
        s.workers[i]? = some w → w.phase = WPhase.running →
        w.req.convert_format = none →
        (dmStep s (.wExitOk i listing)).events =
          s.events ++ [completedEvt w.req.id
            ((find_downloaded_file listing).map (fun d => d.name))]) := by
  constructor
  · intro y acts e he hc
    exact (dmInv_exec y acts).completedOk e he hc
  · intro s i w listing hw hph hcf
    simp only [dmStep, hw]
    rw [if_pos ⟨hph, hcf⟩]

/-- C7 witness: a successful download with a nonempty listing produces
a Completed event carrying the located file, with progress 100 and no
error; the step-level conjunct is exercised on the same state. -/
theorem c7_completed_event_shape_witness :
    (completedEvt "A" (some "v.mp4") ∈ (dmExec (dmInit true)
        (c7pre ++ [DMAct.wExitOk 0 c7listing])).events ∧
      (completedEvt "A" (some "v.mp4")).status = DownloadStatus.completed ∧
      (completedEvt "A" (some "v.mp4")).progress = 100 ∧
      (completedEvt "A" (some "v.mp4")).error = none) ∧
    ((dmExec (dmInit true) c7pre).workers[0]? = some c7worker ∧
      c7worker.phase = WPhase.running ∧
      c7worker.req.convert_format = none ∧
      (dmStep (dmExec (dmInit true) c7pre)
          (DMAct.wExitOk 0 c7listing)).events =
        (dmExec (dmInit true) c7pre).events ++
          [completedEvt c7worker.req.id
            ((find_downloaded_file c7listing).map (fun d => d.name))]) :=
  ⟨⟨by decide, rfl,
    (c7_completed_event_shape.1 true (c7pre ++ [DMAct.wExitOk 0 c7listing])
      (completedEvt "A" (some "v.mp4")) (by decide) rfl).1,
    (c7_completed_event_shape.1 true (c7pre ++ [DMAct.wExitOk 0 c7listing])
      (completedEvt "A" (some "v.mp4")) (by decide) rfl).2⟩,
   rfl, rfl, rfl,
   c7_completed_event_shape.2 (dmExec (dmInit true) c7pre) 0 c7worker
     c7listing rfl rfl rfl⟩

/-- C7 counterexample: a Completed event whose file path is absent: the
locator found nothing in the (empty) listing, yet Completed was
emitted. -/
theorem c7_counterexample :
    (dmExec (dmInit true) c7acts).events.getLast? =
      some (completedEvt "A" none) ∧
    (completedEvt "A" none).file_path = none :=
  ⟨rfl, rfl⟩

/-- C9 counterexample prefix: job A's worker finishes (Completed) but
its entry is still in the active map (the scheduler's lazy cleanup has
not run). -/
def c9pre : List DMAct :=
  [.enqueue dmReqA, .schedStart, .wBegin 0 true, .wExitOk 0 []]

/-- C9 second-conjunct prefix: job A is downloading and a cancellation
is pending delivery. -/
def c9bpre : List DMAct :=
  [.setMax 1, .enqueue dmReqA, .schedStart, .wBegin 0 true, .cancel "A"]

/-- The running worker with a pending cancellation after `c9bpre`. -/
def c9worker : DlWorker :=
  ⟨dmReqA, .running, true, true, false⟩

/-- C9: what cancel actually guarantees.  If the job's worker has
already finished, `cancel` merely removes the stale map entry and emits
nothing; a Cancelled event is emitted exactly when the cancellation
message is delivered to a still-running worker. -/
theorem c9_cancel_event_semantics :
    (∀ (s : DMState) (id : String) (wi : Nat),
        lookupActive s.activeMap id = some wi →
        workerDone s wi = true →
        (dmStep s (.cancel id)).events = s.events ∧
        lookupActive (dmStep s (.cancel id)).activeMap id = none) ∧
    (∀ (s : DMState) (i : Nat) (w : DlWorker),
        s.workers[i]? = some w → w.phase = WPhase.running →
        w.cancelPending = true →
        (dmStep s (.wCancelRecv i)).events =
          s.events ++ [cancelledEvt w.req.id]) := by
  constructor
  · intro s id wi hlk hd
    have hd2 : workerDone
        { s with activeMap := removeActive s.activeMap id } wi = true := hd
    constructor
    · simp only [dmStep, hlk]
      rw [if_pos hd2]
    · simp only [dmStep, hlk]
      rw [if_pos hd2]
      exact lookupActive_removeActive _ _
  · intro s i w hw hph hcp
    simp only [dmStep, hw]
    rw [if_pos ⟨hph, hcp⟩]

/-- C9 witness: both conjuncts exercised: cancelling the finished job
removes its map entry silently; delivering a pending cancellation to a
running worker emits the Cancelled event. -/
theorem c9_cancel_event_semantics_witness :
    (lookupActive (dmExec (dmInit true) c9pre).activeMap "A" = some 0 ∧
      workerDone (dmExec (dmInit true) c9pre) 0 = true ∧
      (dmStep (dmExec (dmInit true) c9pre) (DMAct.cancel "A")).events =
        (dmExec (dmInit true) c9pre).events ∧
      lookupActive
        (dmStep (dmExec (dmInit true) c9pre) (DMAct.cancel "A")).activeMap
        "A" = none) ∧
    ((dmExec (dmInit true) c9bpre).workers[0]? = some c9worker ∧
      c9worker.phase = WPhase.running ∧
      c9worker.cancelPending = true ∧
      (dmStep (dmExec (dmInit true) c9bpre) (DMAct.wCancelRecv 0)).events =
        (dmExec (dmInit true) c9bpre).events ++
          [cancelledEvt c9worker.req.id]) :=
  ⟨⟨rfl, rfl,
    (c9_cancel_event_semantics.1 (dmExec (dmInit true) c9pre) "A" 0
      rfl rfl).1,
    (c9_cancel_event_semantics.1 (dmExec (dmInit true) c9pre) "A" 0
      rfl rfl).2⟩,
   rfl, rfl, rfl,
   c9_cancel_event_semantics.2 (dmExec (dmInit true) c9bpre) 0 c9worker
     rfl rfl rfl⟩

/-- C9 counterexample: at the moment of the cancel call the job exists
in the active map, yet the whole run ends quiescent with zero Cancelled
events for "A". -/
theorem c9_counterexample :
    (lookupActive (dmExec (dmInit true) c9pre).activeMap "A").isSome = true ∧
    countCancelledEvts (dmExec (dmInit true)
      (c9pre ++ [DMAct.cancel "A", DMAct.schedStop])).events "A" = 0 ∧
    quiescentB (dmExec (dmInit true)
      (c9pre ++ [DMAct.cancel "A", DMAct.schedStop])) = true :=
  ⟨rfl, rfl, rfl⟩

/-- C10 counterexample trace: the processor starts with cap 5 captured;
`set_max_concurrent(1)` during the run does not affect the running
processor, which admits two jobs. -/
def c10acts : List DMAct :=
  [.enqueue dmReqA, .setMax 1, .enqueue dmReqB, .schedStart, .schedStart]

/-- C10 witness prefix: cap 1 captured at spawn, one job admitted, so
the map is full. -/
def c10pre : List DMAct :=
  [.setMax 1, .enqueue dmReqA, .schedStart]

/-- C10: `set_max_concurrent` clamps into [1,10] (0 yields 1, 100
yields 10).  Scheduling honors the cap captured when the processor
spawned (`capAtSpawn`), not the live field: a full map blocks further
admissions, but a cap change during a run only takes effect at the
next processor spawn (see the counterexample). -/
theorem c10_setmax_clamp_and_spawn_cap :
    (∀ (s : DMState) (n : Nat),
        (dmStep s (.setMax n)).maxConcurrent = min (max n 1) 10) ∧
    (∀ (s : DMState), (dmStep s (.setMax 0)).maxConcurrent = 1) ∧
    (∀ (s : DMState), (dmStep s (.setMax 100)).maxConcurrent = 10) ∧
    (∀ (s : DMState) (r : DownloadRequest), s.processing = false →
        (dmStep s (.enqueue r)).capAtSpawn = s.maxConcurrent) ∧
    (∀ (s : DMState), ¬ s.activeMap.length < s.capAtSpawn →
        dmStep s .schedStart = s) := by
  refine ⟨fun s n => rfl, fun s => rfl, fun s => rfl, ?_, ?_⟩
  · intro s r hp
    simp only [dmStep]
    rw [if_neg (by rw [hp]; exact fun hc => Bool.noConfusion hc)]
  · intro s hlen
    simp only [dmStep]
    by_cases hp : s.processing = true
    · rw [if_pos hp]
      rcases hq : s.queue with _ | ⟨r, rest⟩
      · rfl
      · dsimp only
        rw [if_neg hlen]
    · rw [if_neg hp]

/-- C10 witness: a fresh manager captures its cap on enqueue; a full
map (1 job, cap 1) makes a scheduler iteration a no-op. -/
theorem c10_setmax_clamp_and_spawn_cap_witness :
    ((dmInit true).processing = false ∧
      (dmStep (dmInit true) (DMAct.enqueue dmReqA)).capAtSpawn =
        (dmInit true).maxConcurrent) ∧
    (¬ (dmExec (dmInit true) c10pre).activeMap.length <
        (dmExec (dmInit true) c10pre).capAtSpawn ∧
      dmStep (dmExec (dmInit true) c10pre) DMAct.schedStart =
        dmExec (dmInit true) c10pre) :=
  ⟨⟨rfl, c10_setmax_clamp_and_spawn_cap.2.2.2.1 (dmInit true) dmReqA rfl⟩,
   ⟨by decide, c10_setmax_clamp_and_spawn_cap.2.2.2.2
      (dmExec (dmInit true) c10pre) (by decide)⟩⟩

/-- C10 counterexample: after `set_max_concurrent(1)` during an active
run, the scheduler still admits by the captured cap 5: two jobs are
active while the field says 1. -/
theorem c10_counterexample :
    (dmExec (dmInit true) c10acts).maxConcurrent = 1 ∧
    (dmExec (dmInit true) c10acts).capAtSpawn = 5 ∧
    (dmExec (dmInit true) c10acts).activeMap.length = 2 :=
  ⟨rfl, rfl, rfl⟩
